import Mathlib

/-!
Verification development for the AgentScore workflow graph-and-cost analysis
engine.  The definitions below are a shallow embedding of the Python source:

* `src/backend/pricing.py` — the pricing table and `calculate_cost`;
* `src/backend/scoring.py` — `match_call_id_to_event`, `filter_findings` and
  the cost-based efficiency scorer (the waste aggregation and score formula at
  lines 168-177, 352-362, 364-468; the source file carries unresolved merge
  conflict residue, and the cost-based pipeline at those lines is the one the
  specification describes), plus the graph metrics of
  `compute_workflow_graph_metrics` (lines 647-718);
* `src/sdk/kaizen/callback.py` — the `_detect_parents` relationship detector.

Monetary amounts and scores are modelled as exact rationals; Python's
`round(x, n)` (round half to even at `n` decimal places) is `pyRound n`, and
Python's `int(x)` (truncation toward zero) is `ratTrunc`.
-/

namespace AgentScore

set_option maxRecDepth 40000

/-- Round a rational to the nearest integer, ties to even
(the rounding mode of Python's built-in `round`). -/
def roundHalfEvenInt (x : ℚ) : ℤ :=
  if x - ⌊x⌋ < 1/2 then ⌊x⌋
  else if 1/2 < x - ⌊x⌋ then ⌊x⌋ + 1
  else if Even ⌊x⌋ then ⌊x⌋ else ⌊x⌋ + 1

/-- Python's `round(x, ndigits)` on exact rationals. -/
def pyRound (ndigits : ℕ) (x : ℚ) : ℚ :=
  (roundHalfEvenInt (x * 10 ^ ndigits) : ℚ) / 10 ^ ndigits

/-- Python's `int(x)`: truncation toward zero. -/
def ratTrunc (x : ℚ) : ℤ :=
  if 0 ≤ x then ⌊x⌋ else -⌊-x⌋

/-! ## Pricing table (`src/backend/pricing.py`)

`MODEL_PRICING` maps model names to input/output cost per one million tokens. -/

def MODEL_PRICING : List (String × ℚ × ℚ) :=
  [ ("gemini-3-pro", 2.00, 12.00),
    ("gemini-3-flash", 0.50, 3.00),
    ("gemini-2.5-pro", 1.25, 10.00),
    ("gemini-2.5-flash", 0.30, 2.50),
    ("gemini-2.5-flash-lite", 0.10, 0.40),
    ("gemini-2.0-flash", 0.10, 0.40),
    ("gemini-2.0-flash-lite", 0.075, 0.30),
    ("gemini-2.0-flash-exp", 0.10, 0.40),
    ("gemini-1.5-pro-002", 1.25, 5.00),
    ("gpt-5.2", 1.75, 14.00),
    ("gpt-5.2-pro", 21.00, 168.00),
    ("gpt-5-mini", 0.25, 2.00),
    ("gpt-4.1", 3.00, 12.00),
    ("gpt-4.1-mini", 0.80, 3.20),
    ("gpt-4.1-nano", 0.20, 0.80),
    ("gpt-4", 30.00, 60.00),
    ("gpt-4o", 5.00, 15.00),
    ("gpt-4o-mini", 0.15, 0.60),
    ("claude-opus-4.5", 5.00, 25.00),
    ("claude-opus-4.1", 15.00, 75.00),
    ("claude-opus-4", 15.00, 75.00),
    ("claude-sonnet-4.5", 3.00, 15.00),
    ("claude-sonnet-4", 3.00, 15.00),
    ("claude-haiku-4.5", 1.00, 5.00),
    ("claude-haiku-3.5", 0.80, 4.00),
    ("claude-haiku-3", 0.25, 1.25) ]

def lookupPricing (m : String) : Option (ℚ × ℚ) :=
  (MODEL_PRICING.find? (fun p => p.1 == m)).map (·.2)

/-- `normalize_model_name`: strip the known vendor-path markers, each at most
once, in the listed order. -/
def normalize_model_name (model : String) : String :=
  ⟨(["models/", "openai/", "anthropic/"].map String.data).foldl
    (fun normalized p =>
      if p.isPrefixOf normalized then normalized.drop p.length else normalized)
    model.data⟩

/-- Python's `s.replace("-demo", "")`: remove every (left-to-right,
non-overlapping) occurrence of `-demo`.  The first argument is fuel (any
value at least the list length gives the full replacement); structural
recursion on the fuel keeps the function kernel-reducible. -/
def stripDemoAux : ℕ → List Char → List Char
  | 0, s => s
  | _ + 1, [] => []
  | fuel + 1, c :: rest =>
    if ['-', 'd', 'e', 'm', 'o'].isPrefixOf (c :: rest) then
      stripDemoAux fuel (rest.drop 4)
    else c :: stripDemoAux fuel rest

def replaceDemo (s : String) : String := ⟨stripDemoAux s.data.length s.data⟩

/-- `calculate_cost(model, prompt_tokens, completion_tokens)`: cost in USD.
Unknown models yield `0` (the source logs a warning and returns `0.0`). -/
def calculate_cost (model : String) (prompt_tokens completion_tokens : ℕ) : ℚ :=
  let normalized := normalize_model_name model
  let is_demo := "-demo".data.isSuffixOf normalized.data
  let normalized := if is_demo then replaceDemo normalized else normalized
  match lookupPricing normalized with
  | none => 0
  | some pricing =>
    let multiplier : ℚ := if is_demo then 10000 else 1
    let input_cost := pricing.1 / 1000000 * prompt_tokens * multiplier
    let output_cost := pricing.2 / 1000000 * completion_tokens * multiplier
    pyRound 6 (input_cost + output_cost)

/-! ## Calls and findings (`src/backend/scoring.py`)

An `Event` is one recorded model invocation (a row of the `events` table):
`run_id`, `model` (the recorded model string, possibly `-demo`-suffixed),
token counts, the stored dollar `cost`, latency in milliseconds and a
creation timestamp.  The three finding shapes mirror the JSON findings the
scorer consumes; the `{items: [...]}` wrapper unwrapping of the source
(lines 174-176 and 352-362) is modelled as already-unwrapped lists. -/

structure Event where
  run_id : String
  model : String
  tokens_in : ℕ
  tokens_out : ℕ
  cost : ℚ
  latency_ms : ℕ
  created_at : ℤ
deriving DecidableEq

/-- A redundancy finding: a group of call identifiers judged duplicates.
`duplicate_call_ids`, when present and non-empty, lists the group members
that are *not* kept (the complement of the kept call). -/
structure RedundancyFinding where
  confidence : ℚ
  call_ids : List String
  duplicate_call_ids : Option (List String)
deriving DecidableEq

/-- A model-overkill finding.  An absent/empty `recommended_model` is the
empty string (falsy in the source). -/
structure OverkillFinding where
  confidence : ℚ
  call_id : String
  current_model : String
  recommended_model : String
deriving DecidableEq

/-- A prompt-bloat finding. -/
structure BloatFinding where
  confidence : ℚ
  call_id : String
  estimated_necessary_tokens : ℕ
deriving DecidableEq

/-- The findings payload, keyed by category. -/
structure AnalysisResults where
  redundancies : List RedundancyFinding
  model_overkill : List OverkillFinding
  prompt_bloat : List BloatFinding
deriving DecidableEq

/-- The first maximal run of decimal digits of a character list
(`re.search` with a digits pattern finds the leftmost match). -/
def firstDigitRun : List Char → Option (List Char)
  | [] => none
  | c :: rest =>
    if c.isDigit then some (c :: rest.takeWhile Char.isDigit)
    else firstDigitRun rest

/-- Parse a run of decimal digits into a natural number. -/
def digitsToNat (l : List Char) : ℕ :=
  l.foldl (fun n c => 10 * n + (c.toNat - '0'.toNat)) 0

/-- `match_call_id_to_event`: extract the first number in the reference and
use it as a 1-based index into the event list; otherwise (or when out of
range) fall back to an exact `run_id` match, and return nothing when both
fail (scoring.py lines 129-145). -/
def match_call_id_to_event (call_id : String) (events : List Event) : Option Event :=
  match firstDigitRun call_id.data with
  | some ds =>
    let n := digitsToNat ds
    if 1 ≤ n ∧ n ≤ events.length then events[n - 1]?
    else events.find? (fun e => e.run_id == call_id)
  | none => events.find? (fun e => e.run_id == call_id)

/-- The cost of the event a reference resolves to, or `0` when it resolves
to nothing (unresolvable references contribute nothing). -/
def resolvedCost (events : List Event) (call_id : String) : ℚ :=
  match match_call_id_to_event call_id events with
  | some e => e.cost
  | none => 0

/-- The confidence threshold of `filter_findings`. -/
def MIN_CONFIDENCE : ℚ := 0.7

/-- `filter_findings`: keep only findings whose confidence reaches the
threshold (scoring.py lines 147-149). -/
def filter_findings {α : Type} (conf : α → ℚ) (findings : List α) : List α :=
  findings.filter (fun f => MIN_CONFIDENCE ≤ conf f)

/-- The duplicate list of a redundancy finding: the explicit
`duplicate_call_ids` when present and non-empty (Python truthiness),
otherwise all listed identifiers but the first (scoring.py lines 370-375). -/
def redundancyDuplicates (f : RedundancyFinding) : List String :=
  match f.duplicate_call_ids with
  | some (d :: ds) => d :: ds
  | _ => if f.call_ids.length > 1 then f.call_ids.tail else []

/-- Dollar waste of one redundancy group: the summed stored costs of the
resolvable duplicates (scoring.py lines 377-385). -/
def redundancyGroupWaste (events : List Event) (f : RedundancyFinding) : ℚ :=
  ((redundancyDuplicates f).map (resolvedCost events)).sum

def redundancy_waste (events : List Event) (redundancies : List RedundancyFinding) : ℚ :=
  (redundancies.map (redundancyGroupWaste events)).sum

/-- Dollar waste of one model-overkill finding: the event's stored cost
minus the recommended model's computed cost, floored at zero; zero when the
reference does not resolve or no recommended model is given
(scoring.py lines 388-406). -/
def overkillItemWaste (events : List Event) (f : OverkillFinding) : ℚ :=
  match match_call_id_to_event f.call_id events with
  | some e =>
    if f.recommended_model ≠ "" then
      max 0 (e.cost - calculate_cost f.recommended_model e.tokens_in e.tokens_out)
    else 0
  | none => 0

def overkill_waste (events : List Event) (overkill : List OverkillFinding) : ℚ :=
  (overkill.map (overkillItemWaste events)).sum

/-- Dollar waste of one prompt-bloat finding: the cost of the excess input
tokens at the event's recorded model, zero output tokens
(scoring.py lines 409-425). -/
def bloatItemWaste (events : List Event) (f : BloatFinding) : ℚ :=
  match match_call_id_to_event f.call_id events with
  | some e =>
    if e.tokens_in > f.estimated_necessary_tokens then
      calculate_cost e.model (e.tokens_in - f.estimated_necessary_tokens) 0
    else 0
  | none => 0

def bloat_waste (events : List Event) (bloat : List BloatFinding) : ℚ :=
  (bloat.map (bloatItemWaste events)).sum

/-- The fields of the scorer's result needed here: the overall score, the
`breakdown`/`savings_breakdown` dollar figures (rounded to 4 decimal
places as in the returned dicts) and the three sub-scores.  The constant
fields of the source result (optimized scores of 100, deprecated grade,
severity counts) are omitted. -/
structure ScoreResult where
  score : ℤ
  redundancy_waste : ℚ
  overkill_waste : ℚ
  bloat_waste : ℚ
  total_waste : ℚ
  total_cost : ℚ
  optimized_cost : ℚ
  sub_redundancy : ℤ
  sub_model_fit : ℤ
  sub_context_efficiency : ℤ
deriving DecidableEq

/-- The cost-based `calculate_efficiency_score` (scoring.py lines 151,
168-177, 352-362, 364-468): total cost floored at `1e-6` when zero,
confidence filtering, the three waste aggregates, score
`int((optimized / total) * 100)` clamped to `[0, 100]`, and the sub-scores.
An empty event list yields the neutral perfect result (lines 155-166). -/
def calculate_efficiency_score (analysis : AnalysisResults) (events : List Event) :
    ScoreResult :=
  if events.isEmpty then ⟨100, 0, 0, 0, 0, 0, 0, 100, 100, 100⟩
  else
    let total_cost0 := (events.map Event.cost).sum
    let total_cost := if total_cost0 = 0 then 0.000001 else total_cost0
    let redundancies := filter_findings RedundancyFinding.confidence analysis.redundancies
    let overkill := filter_findings OverkillFinding.confidence analysis.model_overkill
    let bloat := filter_findings BloatFinding.confidence analysis.prompt_bloat
    let rWaste := redundancy_waste events redundancies
    let oWaste := overkill_waste events overkill
    let bWaste := bloat_waste events bloat
    let total_waste := rWaste + oWaste + bWaste
    let optimized_cost := max (total_cost - total_waste) 0.000001
    let efficiency_score := max 0 (min 100 (ratTrunc (optimized_cost / total_cost * 100)))
    { score := efficiency_score
      redundancy_waste := pyRound 4 rWaste
      overkill_waste := pyRound 4 oWaste
      bloat_waste := pyRound 4 bWaste
      total_waste := pyRound 4 total_waste
      total_cost := pyRound 4 total_cost
      optimized_cost := pyRound 4 optimized_cost
      sub_redundancy :=
        if 0 < total_cost then max 0 (100 - ratTrunc (rWaste / total_cost * 100)) else 100
      sub_model_fit :=
        if 0 < total_cost then max 0 (100 - ratTrunc (oWaste / total_cost * 100)) else 100
      sub_context_efficiency :=
        if 0 < total_cost then max 0 (100 - ratTrunc (bWaste / total_cost * 100)) else 100 }

/-! ## Relationship detector (`src/sdk/kaizen/callback.py`, `_detect_parents`)

The per-workflow response cache is a list of `(run_id, response)` records;
texts are lowered character-wise (the source lowercases whole strings). -/

structure CachedResponse where
  run_id : String
  response : String
deriving DecidableEq

structure ParentEdge where
  parent_id : String
  score : ℚ
  overlap_type : String
deriving DecidableEq

def lowerChars (s : String) : List Char := s.data.map Char.toLower

/-- Python's `sub in s` substring containment test. -/
def isSubstringOf (sub : List Char) : List Char → Bool
  | [] => sub.isEmpty
  | c :: rest => sub.isPrefixOf (c :: rest) || isSubstringOf sub rest

/-- Python's `range(0, stop, step)` for a positive step, on naturals
(empty when `stop = 0`). -/
def pyRange0 (stop step : ℕ) : List ℕ :=
  (List.range ((stop + step - 1) / step)).map (· * step)

/-- The 50-character chunks of a response text (`range(0, len-50, 50)`,
each chunk `response_text[i:i+50]`; callback.py line 58). -/
def responseChunks (response_text : List Char) : List (List Char) :=
  (pyRange0 (response_text.length - 50) 50).map
    (fun i => (response_text.drop i).take 50)

/-- The edge `_detect_parents` produces for one cached record, if any:
skip empty responses; full-substring match gives an exact edge of score 1;
otherwise, for responses longer than 100 characters with more than one
50-character chunk contained in the prompt, a partial edge scoring
matched/total chunks; an edge is kept only when the raw score is at least
0.1, and its stored score is rounded to 2 decimal places
(callback.py lines 43-69). -/
def detectParentsFor (prompt_norm : List Char) (record : CachedResponse) :
    Option ParentEdge :=
  let response_text := lowerChars record.response
  if response_text.isEmpty then none
  else
    let scored : ℚ × String :=
      if isSubstringOf response_text prompt_norm then (1, "exact")
      else if response_text.length > 100 then
        let chunks := responseChunks response_text
        let nmatched := (chunks.filter (fun c => isSubstringOf c prompt_norm)).length
        if nmatched > 1 then ((nmatched : ℚ) / (chunks.length : ℚ), "partial")
        else (0, "none")
      else (0, "none")
    if 0.1 ≤ scored.1 then
      some ⟨record.run_id, pyRound 2 scored.1, scored.2⟩
    else none

/-- `_detect_parents` over a workflow's cache: the guard for an empty
prompt (or an unknown workflow, modelled by an empty cache) returns no
edges (callback.py lines 37-38). -/
def detect_parents (cache : List CachedResponse) (prompt : String) : List ParentEdge :=
  if prompt.data.isEmpty then []
  else cache.filterMap (detectParentsFor (lowerChars prompt))

/-! ## Graph metrics (`src/backend/scoring.py`, `compute_workflow_graph_metrics`)

Nodes are the workflow's events keyed by `run_id`; edges are
`(source_id, target_id)` pairs.  The per-node dictionaries
(`node_latencies`, `node_costs`, `rid_to_time`) become lookups by
`run_id`; duplicate `run_id`s are excluded by hypothesis in every theorem
below (the source dictionaries would keep one entry per id). -/

def rids (events : List Event) : List String := events.map Event.run_id

def latencyOf (events : List Event) (rid : String) : ℕ :=
  match events.find? (fun e => e.run_id == rid) with
  | some e => e.latency_ms
  | none => 0

def costOf (events : List Event) (rid : String) : ℚ :=
  match events.find? (fun e => e.run_id == rid) with
  | some e => e.cost
  | none => 0

def timeOf (events : List Event) (rid : String) : ℤ :=
  match events.find? (fun e => e.run_id == rid) with
  | some e => e.created_at
  | none => 0

/-- Edges whose source is a known node, in the iteration order of the
source's adjacency dictionary: grouped by source node in node order, edge
order within a group (`for src in adj: for tgt in adj[src]`). -/
def orderedEdges (events : List Event) (edges : List (String × String)) :
    List (String × String) :=
  (rids events).flatMap (fun s => edges.filter (fun e => e.1 == s))

/-- Outgoing-edge count of a node (`outbound_counts`; an edge contributes
whenever its source is the node, regardless of its target). -/
def outDegree (edges : List (String × String)) (rid : String) : ℕ :=
  (edges.filter (fun e => e.1 == rid)).length

/-- Leaves: nodes with zero outgoing edges, in node order (line 672). -/
def leafNodes (events : List Event) (edges : List (String × String)) : List String :=
  (rids events).filter (fun r => outDegree edges r == 0)

/-- The intended output: the leaf with the latest creation timestamp,
keeping the earliest-listed leaf on ties (the source's stable descending
sort followed by taking the head; lines 674-677). -/
def intendedOutput (events : List Event) (edges : List (String × String)) :
    Option String :=
  match leafNodes events edges with
  | [] => none
  | l :: ls =>
    some (ls.foldl (fun best x =>
      if timeOf events best < timeOf events x then x else best) l)

/-- Reverse adjacency: the sources of the in-scope edges into a node, in
the source's iteration order (lines 681-684). -/
def revAdj (events : List Event) (edges : List (String × String)) (rid : String) :
    List String :=
  ((orderedEdges events edges).filter (fun e => e.2 == rid)).map (·.1)

/-- The breadth-first traversal of lines 686-693: pop the queue head, and
append every not-yet-alive reverse neighbour to both the alive set and the
queue.  Structural fuel (one unit per dequeue) replaces the `while` loop;
`events.length` units suffice because every dequeued node was enqueued
when it first became alive. -/
def bfsLoop (events : List Event) (edges : List (String × String)) :
    ℕ → List String → List String → List String
  | 0, _, alive => alive
  | _ + 1, [], alive => alive
  | fuel + 1, curr :: queue, alive =>
    let st := (revAdj events edges curr).foldl
      (fun (st : List String × List String) p =>
        if p ∈ st.2 then st else (st.1 ++ [p], st.2 ++ [p]))
      (queue, alive)
    bfsLoop events edges fuel st.1 st.2

/-- The alive set: nodes reached backward from the intended output; empty
when there is no intended output (lines 678-693). -/
def aliveNodes (events : List Event) (edges : List (String × String)) : List String :=
  match intendedOutput events edges with
  | none => []
  | some io => bfsLoop events edges events.length [io] [io]

/-- Dead nodes: nodes not reached by the backward traversal (line 695). -/
def deadNodes (events : List Event) (edges : List (String × String)) : List String :=
  (rids events).filter (fun r => ¬ r ∈ aliveNodes events edges)

/-- Dead-branch cost: the summed costs of the dead nodes (line 696). -/
def dead_branch_waste (events : List Event) (edges : List (String × String)) : ℚ :=
  ((deadNodes events edges).map (costOf events)).sum

/-- One relaxation of one edge `(src, tgt)`:
`if dist[tgt] < dist[src] + latency[tgt]` update `dist[tgt]`
(lines 705-708; the `parent_map` bookkeeping does not affect `dist`). -/
def relaxEdge (events : List Event) (d : String → ℕ) (e : String × String) :
    String → ℕ :=
  if d e.2 < d e.1 + latencyOf events e.2 then
    Function.update d e.2 (d e.1 + latencyOf events e.2)
  else d

/-- One full pass over all in-scope edges in iteration order. -/
def relaxPass (events : List Event) (edges : List (String × String))
    (d : String → ℕ) : String → ℕ :=
  (orderedEdges events edges).foldl (relaxEdge events) d

/-- `dist` after `k` relaxation passes, starting from each node's own
latency. -/
def distIter (events : List Event) (edges : List (String × String)) (k : ℕ) :
    String → ℕ :=
  (fun d => relaxPass events edges d)^[k] (latencyOf events)

/-- `dist` after the node-count-many relaxation passes, starting from each
node's own latency (lines 699-708). -/
def distAfter (events : List Event) (edges : List (String × String)) :
    String → ℕ :=
  distIter events edges events.length

/-- Critical-path latency: the maximum of the final `dist` values
(line 710; `0` for an empty workflow). -/
def critical_path_latency (events : List Event) (edges : List (String × String)) : ℕ :=
  ((rids events).map (distAfter events edges)).foldr max 0

/-- `v` is backward-reachable from the intended output `out` over reversed
edges; equivalently, there is a forward path from `v` to `out`. -/
inductive ReachesOutput (edges : List (String × String)) (out : String) : String → Prop
  | refl : ReachesOutput edges out out
  | step (s t : String) : (s, t) ∈ edges → ReachesOutput edges out t →
      ReachesOutput edges out s

/-- A walk to `v`, stored with `v` first and the start node last;
consecutive stored nodes are joined by a forward edge (later ← earlier). -/
inductive WalkTo (edges : List (String × String)) : String → List String → Prop
  | single (v : String) : WalkTo edges v [v]
  | cons (s v : String) (w : List String) : (s, v) ∈ edges → WalkTo edges s w →
      WalkTo edges v (v :: w)

/-- The cumulative latency of a walk. -/
def walkSum (events : List Event) (w : List String) : ℕ :=
  (w.map (latencyOf events)).sum

/-! ## Definitions modelled from the specification's wording

These definitions follow the specification/claim text rather than the
source; they exist to be compared with the source-derived definitions
above. -/

/-- Modelled from the spec: the aggregate score formula of the claim —
`round(100 × optimizedCost / totalCost)` clamped to `[0, 100]`, with
`optimizedCost = max(0, totalCost − totalWaste)` and the same total-cost
epsilon floor and waste aggregates. -/
def efficiency_score_claim (analysis : AnalysisResults) (events : List Event) : ℤ :=
  let total_cost0 := (events.map Event.cost).sum
  let total_cost := if total_cost0 = 0 then 0.000001 else total_cost0
  let rWaste := redundancy_waste events
    (filter_findings RedundancyFinding.confidence analysis.redundancies)
  let oWaste := overkill_waste events
    (filter_findings OverkillFinding.confidence analysis.model_overkill)
  let bWaste := bloat_waste events
    (filter_findings BloatFinding.confidence analysis.prompt_bloat)
  let optimized_cost := max 0 (total_cost - (rWaste + oWaste + bWaste))
  max 0 (min 100 (roundHalfEvenInt (100 * optimized_cost / total_cost)))

/-- Modelled from the spec: per-finding model-overkill waste computed as
`max(0, cost(callRecordedModel, tokens_in, tokens_out) −
cost(recommendedModel, tokens_in, tokens_out))`, using the call's recorded
model string for the current side. -/
def overkillItemWasteClaim (events : List Event) (f : OverkillFinding) : ℚ :=
  match match_call_id_to_event f.call_id events with
  | some e =>
    if f.recommended_model ≠ "" then
      max 0 (calculate_cost e.model e.tokens_in e.tokens_out -
        calculate_cost f.recommended_model e.tokens_in e.tokens_out)
    else 0
  | none => 0

/-- The last maximal run of decimal digits of a character list. -/
def lastDigitRun (l : List Char) : Option (List Char) :=
  (firstDigitRun l.reverse).map List.reverse

/-- Modelled from the spec: reference resolution that treats the *trailing*
integer of the reference as a 1-based index, as the claim states, with the
same fallback to an exact identifier match. -/
def match_call_id_to_event_claim (call_id : String) (events : List Event) :
    Option Event :=
  match lastDigitRun call_id.data with
  | some ds =>
    let n := digitsToNat ds
    if 1 ≤ n ∧ n ≤ events.length then events[n - 1]?
    else events.find? (fun e => e.run_id == call_id)
  | none => events.find? (fun e => e.run_id == call_id)

/-- Modelled from the claim as stated (C8): for every cached prior
response — with no non-emptiness proviso — a full-substring match emits an
exact edge of score 1.0; otherwise a long response with more than one
matched chunk emits a partial edge whose score is exactly
chunks_matched / chunks_total; an edge is emitted only when its score is
at least 0.1. -/
def c8ClaimEdge (prompt_norm : List Char) (record : CachedResponse) :
    Option ParentEdge :=
  let response_text := lowerChars record.response
  if isSubstringOf response_text prompt_norm then
    some ⟨record.run_id, 1, "exact"⟩
  else if response_text.length > 100 then
    let chunks := responseChunks response_text
    let nmatched := (chunks.filter (fun c => isSubstringOf c prompt_norm)).length
    if nmatched > 1 ∧ (0.1 : ℚ) ≤ (nmatched : ℚ) / (chunks.length : ℚ) then
      some ⟨record.run_id, (nmatched : ℚ) / (chunks.length : ℚ), "partial"⟩
    else none
  else none

/-- The amended per-record behaviour of the detector (C8): the same as
`c8ClaimEdge` except that empty responses emit nothing and the stored
score of an emitted edge is rounded to two decimal places. -/
def c8AmendedEdge (prompt_norm : List Char) (record : CachedResponse) :
    Option ParentEdge :=
  let response_text := lowerChars record.response
  if response_text.isEmpty then none
  else if isSubstringOf response_text prompt_norm then
    some ⟨record.run_id, 1, "exact"⟩
  else if response_text.length > 100 then
    let chunks := responseChunks response_text
    let nmatched := (chunks.filter (fun c => isSubstringOf c prompt_norm)).length
    if nmatched > 1 ∧ (0.1 : ℚ) ≤ (nmatched : ℚ) / (chunks.length : ℚ) then
      some ⟨record.run_id, pyRound 2 ((nmatched : ℚ) / (chunks.length : ℚ)), "partial"⟩
    else none
  else none

/-- The consecutive edges of a linear chain of nodes. -/
def chainEdges (l : List String) : List (String × String) := l.zip l.tail

/-! ## Concrete inputs used by counterexamples and witnesses -/

def c1e1 : Event := ⟨"a1", "gpt-4o-mini", 100, 50, 1, 10, 0⟩
def c1e2 : Event := ⟨"a2", "gpt-4o-mini", 100, 50, 0.004, 10, 1⟩
def c1E : List Event := [c1e1, c1e2]
def c1rf : RedundancyFinding := ⟨0.9, ["a1", "a2"], none⟩
def c1A : AnalysisResults := ⟨[c1rf], [], []⟩
def c1we : Event := ⟨"b1", "gpt-4o", 10, 10, 2, 5, 0⟩

def c2lowf : RedundancyFinding := ⟨0.5, ["a1", "a2"], none⟩

def c3e1 : Event := ⟨"x1", "gpt-4o-mini", 10, 10, 0.002, 5, 0⟩
def c3e2 : Event := ⟨"x2", "gpt-4o-mini", 10, 10, 0.003, 5, 1⟩
def c3e3 : Event := ⟨"x3", "gpt-4o-mini", 10, 10, 0.004, 5, 2⟩
def c3E : List Event := [c3e1, c3e2, c3e3]
def c3f : RedundancyFinding := ⟨0.95, ["x1", "x2", "x3"], none⟩

def c4e : Event := ⟨"a", "gpt-4", 1000, 1000, 0, 10, 0⟩
def c4E : List Event := [c4e]
def c4f : OverkillFinding := ⟨0.9, "a", "gpt-4", "gpt-4o-mini"⟩
def c4we : Event := ⟨"b", "gpt-4-demo", 1000, 1000, 900, 10, 0⟩
def c4wE : List Event := [c4we]
def c4wf : OverkillFinding := ⟨0.8, "b", "gpt-4", "gpt-4o-mini"⟩

def c9ex : Event := ⟨"x", "gpt-4o-mini", 10, 10, 0.001, 5, 0⟩
def c9ey : Event := ⟨"y", "gpt-4o-mini", 10, 10, 0.001, 5, 1⟩
def c9ez : Event := ⟨"z", "gpt-4o-mini", 10, 10, 0.001, 5, 2⟩
def c9E : List Event := [c9ex, c9ey, c9ez]

def c8resp : String :=
  ⟨List.replicate 50 'a' ++ List.replicate 50 'b' ++ List.replicate 51 'c'⟩
def c8prompt : String := ⟨List.replicate 50 'a' ++ List.replicate 50 'b'⟩
def c8cache : List CachedResponse := [⟨"r0", ""⟩, ⟨"r2", c8resp⟩]

def c7ea : Event := ⟨"a", "m", 1, 1, 0, 5, 0⟩
def c7eb : Event := ⟨"b", "m", 1, 1, 0, 7, 1⟩
def c7E : List Event := [c7ea, c7eb]
def c7edges : List (String × String) := [("a", "b")]
def c7rank : String → ℕ := fun s => if s = "a" then 0 else 1

def c10cache : List CachedResponse := [⟨"r1", "hello world"⟩]
def c10prompt : String := "say hello world"

/-! # Theorems -/

theorem roundHalfEvenInt_intCast (k : ℤ) : roundHalfEvenInt (k : ℚ) = k := by
  simp [roundHalfEvenInt]

theorem floor_le_roundHalfEvenInt (x : ℚ) : ⌊x⌋ ≤ roundHalfEvenInt x := by
  unfold roundHalfEvenInt
  split_ifs <;> omega

theorem roundHalfEvenInt_eq_of_lt_half (x : ℚ) (k : ℤ) (h1 : (k : ℚ) ≤ x)
    (h2 : x < (k : ℚ) + 1/2) : roundHalfEvenInt x = k := by
  have hk : ⌊x⌋ = k := Int.floor_eq_iff.mpr ⟨h1, by linarith⟩
  unfold roundHalfEvenInt
  rw [hk]
  rw [if_pos (by linarith)]

theorem roundHalfEvenInt_eq_of_gt_half (x : ℚ) (k : ℤ) (h1 : (k : ℚ) + 1/2 < x)
    (h2 : x < (k : ℚ) + 1) : roundHalfEvenInt x = k + 1 := by
  have hk : ⌊x⌋ = k := Int.floor_eq_iff.mpr ⟨by linarith, by linarith⟩
  unfold roundHalfEvenInt
  rw [hk]
  rw [if_neg (by linarith), if_pos (by linarith)]

theorem pyRound_eq_of_int (ndigits : ℕ) (x : ℚ) (k : ℤ) (h : x * 10 ^ ndigits = k) :
    pyRound ndigits x = (k : ℚ) / 10 ^ ndigits := by
  rw [pyRound, h, roundHalfEvenInt_intCast]

theorem roundHalfEvenInt_le_ceil (x : ℚ) : roundHalfEvenInt x ≤ ⌈x⌉ := by
  have hfc : ⌊x⌋ ≤ ⌈x⌉ := Int.floor_le_ceil x
  unfold roundHalfEvenInt
  split_ifs with h1 h2 h3
  · exact hfc
  · have hx : (⌊x⌋ : ℚ) < x := by linarith
    have := Int.lt_ceil.mpr hx
    omega
  · exact hfc
  · have hx : (⌊x⌋ : ℚ) < x := by linarith
    have := Int.lt_ceil.mpr hx
    omega

example : calculate_cost "gpt-4" 1000 1000 = 0.09 := by
  simp +decide only [calculate_cost, reduceIte,
    show normalize_model_name "gpt-4" = "gpt-4" from by decide,
    show lookupPricing "gpt-4" = some (30.00, 60.00) from rfl]
  rw [pyRound_eq_of_int 6 _ 90000 (by norm_num)]
  norm_num
example : calculate_cost "gpt-4-demo" 1000 1000 = 900 := by
  simp +decide only [calculate_cost, reduceIte,
    show normalize_model_name "gpt-4-demo" = "gpt-4-demo" from by decide,
    show replaceDemo "gpt-4-demo" = "gpt-4" from by decide,
    show lookupPricing "gpt-4" = some (30.00, 60.00) from rfl]
  rw [pyRound_eq_of_int 6 _ 900000000 (by norm_num)]
  norm_num
example : calculate_cost "models/gemini-2.5-flash" 1000 0 = 0.0003 := by
  simp +decide only [calculate_cost, reduceIte,
    show normalize_model_name "models/gemini-2.5-flash" = "gemini-2.5-flash" from by decide,
    show lookupPricing "gemini-2.5-flash" = some (0.30, 2.50) from rfl]
  rw [pyRound_eq_of_int 6 _ 300 (by norm_num)]
  norm_num
example : calculate_cost "fake-model-xyz" 1000 1000 = 0 := by
  simp +decide only [calculate_cost, reduceIte,
    show normalize_model_name "fake-model-xyz" = "fake-model-xyz" from by decide,
    show lookupPricing "fake-model-xyz" = none from rfl]

/-! ## Helper lemmas -/

theorem filter_findings_cons {α : Type} (conf : α → ℚ) (f : α) (fs : List α) :
    filter_findings conf (f :: fs) =
      if MIN_CONFIDENCE ≤ conf f then f :: filter_findings conf fs
      else filter_findings conf fs := by
  simp [filter_findings, List.filter_cons]

theorem filter_findings_nil {α : Type} (conf : α → ℚ) :
    filter_findings conf ([] : List α) = [] := rfl

theorem filter_findings_middle {α : Type} (conf : α → ℚ) (f : α)
    (l1 l2 : List α) (h : conf f < MIN_CONFIDENCE) :
    filter_findings conf (l1 ++ f :: l2) = filter_findings conf (l1 ++ l2) := by
  simp only [filter_findings, List.filter_append, List.filter_cons]
  rw [if_neg (by simpa using not_le.mpr h)]

theorem pyRound_one (ndigits : ℕ) : pyRound ndigits 1 = 1 := by
  rw [pyRound_eq_of_int ndigits 1 (10 ^ ndigits) (by push_cast; ring)]
  push_cast
  rw [div_self (by positivity)]

/-- The score of the non-empty branch of `calculate_efficiency_score`,
written as the claim's decomposition. -/
theorem calculate_efficiency_score_of_ne_nil (analysis : AnalysisResults)
    (events : List Event) (h : events ≠ []) :
    (calculate_efficiency_score analysis events).score =
      max 0 (min 100 (ratTrunc
        ((max ((if (events.map Event.cost).sum = 0 then 0.000001
                else (events.map Event.cost).sum) -
            (redundancy_waste events
                (filter_findings RedundancyFinding.confidence analysis.redundancies) +
              overkill_waste events
                (filter_findings OverkillFinding.confidence analysis.model_overkill) +
              bloat_waste events
                (filter_findings BloatFinding.confidence analysis.prompt_bloat)))
            0.000001) /
          (if (events.map Event.cost).sum = 0 then 0.000001
            else (events.map Event.cost).sum) * 100))) := by
  rw [calculate_efficiency_score]
  rw [if_neg (by simpa [List.isEmpty_iff] using h)]

/-! ## C1 — the aggregate score formula -/

/-- C1, counterexample to the claim as stated: on two calls of total cost
1.004 and a single confident redundancy finding wasting 0.004, the source
returns `int(100 × 1/1.004) = 99`, while the claim's
`round(100 × optimizedCost/totalCost)` is `100`. -/
theorem c1_round_counterexample :
    (calculate_efficiency_score c1A c1E).score = 99 ∧
      efficiency_score_claim c1A c1E = 100 := by
  have hfil : filter_findings RedundancyFinding.confidence c1A.redundancies = [c1rf] := by
    show filter_findings RedundancyFinding.confidence [c1rf] = [c1rf]
    rw [filter_findings_cons, if_pos (by norm_num [MIN_CONFIDENCE, c1rf]), filter_findings_nil]
  have hrw : redundancy_waste c1E [c1rf] = 0.004 := by
    simp only [redundancy_waste, redundancyGroupWaste, List.map_cons, List.map_nil,
      List.sum_cons, List.sum_nil,
      show redundancyDuplicates c1rf = ["a2"] from rfl,
      show resolvedCost c1E "a2" = c1e2.cost from rfl]
    norm_num [c1e2]
  have hcost : (c1E.map Event.cost).sum = 1.004 := by
    simp only [c1E, List.map_cons, List.map_nil, List.sum_cons, List.sum_nil, c1e1, c1e2]
    norm_num
  constructor
  · rw [calculate_efficiency_score_of_ne_nil c1A c1E (by simp [c1E])]
    simp only [hfil, hcost,
      show filter_findings OverkillFinding.confidence c1A.model_overkill = [] from rfl,
      show filter_findings BloatFinding.confidence c1A.prompt_bloat = [] from rfl,
      hrw, overkill_waste, bloat_waste, List.map_nil, List.sum_nil]
    rw [if_neg (by norm_num)]
    norm_num [ratTrunc]
  · rw [efficiency_score_claim]
    simp only [hfil, hcost,
      show filter_findings OverkillFinding.confidence c1A.model_overkill = [] from rfl,
      show filter_findings BloatFinding.confidence c1A.prompt_bloat = [] from rfl,
      hrw, overkill_waste, bloat_waste, List.map_nil, List.sum_nil]
    rw [if_neg (by norm_num)]
    rw [show ((1.004:ℚ) - (0.004 + 0 + 0)) = 1 by norm_num]
    rw [show (100 * max 0 1 / (1.004:ℚ)) = 25000/251 by norm_num]
    rw [roundHalfEvenInt_eq_of_gt_half _ 99 (by norm_num) (by norm_num)]
    norm_num

/-- C1 (amended): for every non-empty call list and any findings input,
the efficiency score equals `int(100 × optimizedCost / totalCost)` —
*truncation*, not rounding — clamped to `[0, 100]`, where `totalCost` is
the summed call costs floored at `1e-6` when zero, `totalWaste` is the sum
of the three confidence-filtered dollar-waste aggregates, and
`optimizedCost` is `totalCost − totalWaste` floored at `1e-6` (not at 0). -/
theorem c1_score_formula (analysis : AnalysisResults) (events : List Event)
    (h : events ≠ []) :
    (calculate_efficiency_score analysis events).score =
      max 0 (min 100 (ratTrunc (100 *
        max ((if (events.map Event.cost).sum = 0 then 0.000001
              else (events.map Event.cost).sum) -
          (redundancy_waste events
              (filter_findings RedundancyFinding.confidence analysis.redundancies) +
            overkill_waste events
              (filter_findings OverkillFinding.confidence analysis.model_overkill) +
            bloat_waste events
              (filter_findings BloatFinding.confidence analysis.prompt_bloat)))
          0.000001 /
        (if (events.map Event.cost).sum = 0 then 0.000001
          else (events.map Event.cost).sum)))) := by
  rw [calculate_efficiency_score_of_ne_nil analysis events h]
  rw [show ∀ a b : ℚ, a / b * 100 = 100 * a / b from fun a b => by ring]

/-- Witness for `c1_score_formula` at one call of cost 2 and no findings. -/
theorem c1_score_formula_witness :
    (calculate_efficiency_score ⟨[], [], []⟩ [c1we]).score =
      max 0 (min 100 (ratTrunc (100 *
        max ((if ([c1we].map Event.cost).sum = 0 then 0.000001
              else ([c1we].map Event.cost).sum) -
          (redundancy_waste [c1we]
              (filter_findings RedundancyFinding.confidence
                (AnalysisResults.mk [] [] []).redundancies) +
            overkill_waste [c1we]
              (filter_findings OverkillFinding.confidence
                (AnalysisResults.mk [] [] []).model_overkill) +
            bloat_waste [c1we]
              (filter_findings BloatFinding.confidence
                (AnalysisResults.mk [] [] []).prompt_bloat)))
          0.000001 /
        (if ([c1we].map Event.cost).sum = 0 then 0.000001
          else ([c1we].map Event.cost).sum)))) :=
  c1_score_formula ⟨[], [], []⟩ [c1we] (by simp)

/-! ## C2 — the confidence filter -/

theorem calculate_efficiency_score_congr (a1 a2 : AnalysisResults) (events : List Event)
    (h1 : filter_findings RedundancyFinding.confidence a1.redundancies =
      filter_findings RedundancyFinding.confidence a2.redundancies)
    (h2 : filter_findings OverkillFinding.confidence a1.model_overkill =
      filter_findings OverkillFinding.confidence a2.model_overkill)
    (h3 : filter_findings BloatFinding.confidence a1.prompt_bloat =
      filter_findings BloatFinding.confidence a2.prompt_bloat) :
    calculate_efficiency_score a1 events = calculate_efficiency_score a2 events := by
  rw [calculate_efficiency_score, calculate_efficiency_score, h1, h2, h3]

/-- C2: a finding of confidence below 0.7 — redundancy, model-overkill or
prompt-bloat, inserted anywhere in its category list — contributes nothing:
the whole result (score, sub-scores and savings breakdown) is unchanged by
removing it. -/
theorem c2_low_confidence_excluded :
    (∀ (events : List Event) (l1 l2 : List RedundancyFinding) (f : RedundancyFinding)
      (o : List OverkillFinding) (b : List BloatFinding), f.confidence < 0.7 →
      calculate_efficiency_score ⟨l1 ++ f :: l2, o, b⟩ events =
        calculate_efficiency_score ⟨l1 ++ l2, o, b⟩ events) ∧
    (∀ (events : List Event) (r : List RedundancyFinding) (l1 l2 : List OverkillFinding)
      (f : OverkillFinding) (b : List BloatFinding), f.confidence < 0.7 →
      calculate_efficiency_score ⟨r, l1 ++ f :: l2, b⟩ events =
        calculate_efficiency_score ⟨r, l1 ++ l2, b⟩ events) ∧
    (∀ (events : List Event) (r : List RedundancyFinding) (o : List OverkillFinding)
      (l1 l2 : List BloatFinding) (f : BloatFinding), f.confidence < 0.7 →
      calculate_efficiency_score ⟨r, o, l1 ++ f :: l2⟩ events =
        calculate_efficiency_score ⟨r, o, l1 ++ l2⟩ events) := by
  refine ⟨fun events l1 l2 f o b h => ?_, fun events r l1 l2 f b h => ?_,
    fun events r o l1 l2 f h => ?_⟩
  · exact calculate_efficiency_score_congr _ _ events
      (filter_findings_middle _ f l1 l2 h) rfl rfl
  · exact calculate_efficiency_score_congr _ _ events
      rfl (filter_findings_middle _ f l1 l2 h) rfl
  · exact calculate_efficiency_score_congr _ _ events
      rfl rfl (filter_findings_middle _ f l1 l2 h)

/-- Witness for `c2_low_confidence_excluded`: a confidence-0.5 redundancy
finding leaves the whole result untouched. -/
theorem c2_low_confidence_excluded_witness :
    calculate_efficiency_score ⟨[c2lowf], [], []⟩ c1E =
      calculate_efficiency_score ⟨[], [], []⟩ c1E :=
  c2_low_confidence_excluded.1 c1E [] [] c2lowf [] [] (by norm_num [c2lowf])

/-! ## C3 — redundancy group waste -/

theorem resolved_sum_eq (events : List Event) (ids : List String) (es : List Event)
    (h : List.Forall₂ (fun id e => match_call_id_to_event id events = some e) ids es) :
    (ids.map (resolvedCost events)).sum = (es.map Event.cost).sum := by
  induction h with
  | nil => rfl
  | cons h1 _ ih =>
    simp only [List.map_cons, List.sum_cons, ih, resolvedCost, h1]

/-- C3: for a redundancy finding whose duplicate identifiers all resolve,
the group's waste is exactly the summed costs of the resolved calls: with
no keep designation (`duplicate_call_ids` absent or empty) these are the
N−1 calls after the first listed identifier, and with an explicit
designation they are precisely the listed non-kept identifiers. -/
theorem c3_redundancy_group_waste (events : List Event) (f : RedundancyFinding) :
    (∀ (keep : String) (rest : List String) (es : List Event),
      f.call_ids = keep :: rest → rest ≠ [] →
      (f.duplicate_call_ids = none ∨ f.duplicate_call_ids = some []) →
      List.Forall₂ (fun id e => match_call_id_to_event id events = some e) rest es →
      redundancyGroupWaste events f = (es.map Event.cost).sum) ∧
    (∀ (ds : List String) (es : List Event),
      f.duplicate_call_ids = some ds → ds ≠ [] →
      List.Forall₂ (fun id e => match_call_id_to_event id events = some e) ds es →
      redundancyGroupWaste events f = (es.map Event.cost).sum) := by
  constructor
  · intro keep rest es hids hrest hdup hres
    have hd : redundancyDuplicates f = rest := by
      obtain ⟨a, as, rfl⟩ : ∃ a as, rest = a :: as := by
        cases rest with
        | nil => exact absurd rfl hrest
        | cons a as => exact ⟨a, as, rfl⟩
      rcases hdup with h | h <;>
        simp [redundancyDuplicates, h, hids]
    rw [redundancyGroupWaste, hd, resolved_sum_eq events rest es hres]
  · intro ds es hdup hne hres
    have hd : redundancyDuplicates f = ds := by
      cases ds with
      | nil => exact absurd rfl hne
      | cons d ds2 => simp [redundancyDuplicates, hdup]
    rw [redundancyGroupWaste, hd, resolved_sum_eq events ds es hres]

/-- Witness for `c3_redundancy_group_waste`: a three-call group with no
keep designation wastes the costs of the second and third calls. -/
theorem c3_redundancy_group_waste_witness :
    redundancyGroupWaste c3E c3f = ([c3e2, c3e3].map Event.cost).sum :=
  (c3_redundancy_group_waste c3E c3f).1 "x1" ["x2", "x3"] [c3e2, c3e3]
    rfl (by decide) (Or.inl rfl)
    (List.Forall₂.cons rfl (List.Forall₂.cons rfl List.Forall₂.nil))

/-! ## C4 — model-overkill waste -/

/-- C4, counterexample to the claim as stated: the source's overkill waste
uses the call's *stored cost*, not the cost recomputed from its recorded
model string.  On a call recorded with model `gpt-4` (1000/1000 tokens)
but stored cost 0, the source yields waste 0 while the claim's formula
yields `0.09 − 0.00075 = 0.08925`. -/
theorem c4_recorded_cost_counterexample :
    overkillItemWaste c4E c4f = 0 ∧
      overkillItemWasteClaim c4E c4f = 0.08925 ∧
      overkillItemWaste c4E c4f ≠ overkillItemWasteClaim c4E c4f := by
  have hm : match_call_id_to_event c4f.call_id c4E = some c4e := rfl
  have hmini : calculate_cost "gpt-4o-mini" 1000 1000 = 0.00075 := by
    simp +decide only [calculate_cost, reduceIte,
      show normalize_model_name "gpt-4o-mini" = "gpt-4o-mini" from by decide,
      show lookupPricing "gpt-4o-mini" = some (0.15, 0.60) from rfl]
    rw [pyRound_eq_of_int 6 _ 750 (by norm_num)]
    norm_num
  have hgpt4 : calculate_cost "gpt-4" 1000 1000 = 0.09 := by
    simp +decide only [calculate_cost, reduceIte,
      show normalize_model_name "gpt-4" = "gpt-4" from by decide,
      show lookupPricing "gpt-4" = some (30.00, 60.00) from rfl]
    rw [pyRound_eq_of_int 6 _ 90000 (by norm_num)]
    norm_num
  have h1 : overkillItemWaste c4E c4f = 0 := by
    simp only [overkillItemWaste, hm]
    rw [if_pos (by decide)]
    rw [show c4f.recommended_model = "gpt-4o-mini" from rfl,
      show c4e.tokens_in = 1000 from rfl, show c4e.tokens_out = 1000 from rfl,
      show c4e.cost = 0 from rfl, hmini]
    norm_num
  have h2 : overkillItemWasteClaim c4E c4f = 0.08925 := by
    simp only [overkillItemWasteClaim, hm]
    rw [if_pos (by decide)]
    rw [show c4f.recommended_model = "gpt-4o-mini" from rfl,
      show c4e.model = "gpt-4" from rfl,
      show c4e.tokens_in = 1000 from rfl, show c4e.tokens_out = 1000 from rfl,
      hmini, hgpt4]
    norm_num
  exact ⟨h1, h2, by rw [h1, h2]; norm_num⟩

/-- C4 (amended): the overkill waste of a finding is
`max(0, storedCost(call) − cost(recommendedModel, tokens_in, tokens_out))`
— the call's *stored cost* is the minuend, no model string is consulted
for the current side — and it is never negative. -/
theorem c4_overkill_item_waste :
    (∀ (events : List Event) (f : OverkillFinding), 0 ≤ overkillItemWaste events f) ∧
    (∀ (events : List Event) (f : OverkillFinding) (e : Event),
      match_call_id_to_event f.call_id events = some e →
      f.recommended_model ≠ "" →
      overkillItemWaste events f =
        max 0 (e.cost - calculate_cost f.recommended_model e.tokens_in e.tokens_out)) := by
  constructor
  · intro events f
    unfold overkillItemWaste
    cases h : match_call_id_to_event f.call_id events with
    | none => exact le_refl 0
    | some e =>
      split_ifs
      · exact le_max_left 0 _
      · exact le_refl 0
  · intro events f e hm hrec
    simp only [overkillItemWaste, hm]
    rw [if_pos hrec]

/-- Witness for `c4_overkill_item_waste` on a resolvable finding with a
recommended model. -/
theorem c4_overkill_item_waste_witness :
    overkillItemWaste c4wE c4wf =
      max 0 (c4we.cost -
        calculate_cost c4wf.recommended_model c4we.tokens_in c4we.tokens_out) :=
  c4_overkill_item_waste.2 c4wE c4wf c4we rfl (by decide)

/-! ## C5 — the demo-suffix multiplier -/

theorem find?_key_eq {α : Type} (l : List (String × α)) (m : String) (v : α)
    (hnd : (l.map Prod.fst).Nodup) (hmem : (m, v) ∈ l) :
    l.find? (fun p => p.1 == m) = some (m, v) := by
  induction l with
  | nil => cases hmem
  | cons a l ih =>
    rw [List.map_cons, List.nodup_cons] at hnd
    cases List.mem_cons.mp hmem with
    | inl h =>
      subst h
      exact List.find?_cons_of_pos _ (by simp)
    | inr h =>
      have hne : ¬(a.1 == m) = true := by
        simp only [beq_iff_eq]
        intro he
        exact hnd.1 (he ▸ List.mem_map_of_mem Prod.fst h)
      exact Eq.trans (List.find?_cons_of_neg _ hne) (ih hnd.2 h)

theorem lookupPricing_eq_of_mem (m : String) (pin pout : ℚ)
    (hmem : (m, pin, pout) ∈ MODEL_PRICING) :
    lookupPricing m = some (pin, pout) := by
  have hnd : (MODEL_PRICING.map Prod.fst).Nodup := by decide
  rw [lookupPricing, find?_key_eq MODEL_PRICING m (pin, pout) hnd hmem]
  rfl

/-- C5, counterexample to the claim as stated: because `calculate_cost`
rounds to 6 decimal places, the exact 10000× relation fails when the base
cost rounds away: one input token of `gpt-4o-mini` costs `1.5e-7`, rounded
to 0, while the demo variant costs `0.0015`. -/
theorem c5_rounding_counterexample :
    MODEL_PRICING.any (fun p => p.1 == "gpt-4o-mini") = true ∧
      calculate_cost "gpt-4o-mini-demo" 1 0 = 0.0015 ∧
      calculate_cost "gpt-4o-mini" 1 0 = 0 ∧
      calculate_cost "gpt-4o-mini-demo" 1 0 ≠
        10000 * calculate_cost "gpt-4o-mini" 1 0 := by
  have hdemo : calculate_cost "gpt-4o-mini-demo" 1 0 = 0.0015 := by
    simp +decide only [calculate_cost, reduceIte,
      show normalize_model_name "gpt-4o-mini-demo" = "gpt-4o-mini-demo" from by decide,
      show replaceDemo "gpt-4o-mini-demo" = "gpt-4o-mini" from by decide,
      show lookupPricing "gpt-4o-mini" = some (0.15, 0.60) from rfl]
    rw [pyRound_eq_of_int 6 _ 1500 (by norm_num)]
    norm_num
  have hbase : calculate_cost "gpt-4o-mini" 1 0 = 0 := by
    simp +decide only [calculate_cost, reduceIte,
      show normalize_model_name "gpt-4o-mini" = "gpt-4o-mini" from by decide,
      show lookupPricing "gpt-4o-mini" = some (0.15, 0.60) from rfl]
    rw [pyRound, roundHalfEvenInt_eq_of_lt_half _ 0 (by norm_num) (by norm_num)]
    norm_num
  exact ⟨by decide, hdemo, hbase, by rw [hdemo, hbase]; norm_num⟩

/-- C5 (amended): for every model of the pricing table and all token
counts, appending `-demo` multiplies the cost by exactly 10000 *provided*
the unrounded base cost is an integer multiple of `1e-6` (so that the
6-decimal rounding of `calculate_cost` is exact on both sides). -/
theorem c5_demo_multiplier (m : String) (pin pout : ℚ) (t_in t_out : ℕ)
    (hmem : (m, pin, pout) ∈ MODEL_PRICING)
    (hexact : ∃ k : ℤ, (pin / 1000000 * t_in + pout / 1000000 * t_out) * 10 ^ 6 = k) :
    calculate_cost (m ++ "-demo") t_in t_out = 10000 * calculate_cost m t_in t_out := by
  have hall : ∀ p ∈ MODEL_PRICING,
      normalize_model_name (p.1 ++ "-demo") = p.1 ++ "-demo" ∧
      "-demo".data.isSuffixOf ((p.1 ++ "-demo").data) = true ∧
      replaceDemo (p.1 ++ "-demo") = p.1 ∧
      normalize_model_name p.1 = p.1 ∧
      "-demo".data.isSuffixOf p.1.data = false := by decide
  obtain ⟨hn1, hsuf, hrep, hn2, hnsuf⟩ := hall (m, pin, pout) hmem
  obtain ⟨k, hk⟩ := hexact
  have hlook := lookupPricing_eq_of_mem m pin pout hmem
  have lhs : calculate_cost (m ++ "-demo") t_in t_out =
      pyRound 6 (pin / 1000000 * t_in * 10000 + pout / 1000000 * t_out * 10000) := by
    simp only [calculate_cost, hn1, hsuf, hrep, hlook, if_true, reduceIte]
  have rhs : calculate_cost m t_in t_out =
      pyRound 6 (pin / 1000000 * t_in * 1 + pout / 1000000 * t_out * 1) := by
    simp only [calculate_cost, hn2, hnsuf, hlook, Bool.false_eq_true, if_false, reduceIte]
  rw [lhs, rhs]
  rw [pyRound_eq_of_int 6 _ (10000 * k) (by push_cast; linear_combination 10000 * hk)]
  rw [pyRound_eq_of_int 6 _ k (by linear_combination hk)]
  push_cast
  ring

/-- Witness for `c5_demo_multiplier` at `gpt-4` with 1000/1000 tokens. -/
theorem c5_demo_multiplier_witness :
    calculate_cost ("gpt-4" ++ "-demo") 1000 1000 =
      10000 * calculate_cost "gpt-4" 1000 1000 :=
  c5_demo_multiplier "gpt-4" 30.00 60.00 1000 1000 (by simp [ MODEL_PRICING])
    ⟨90000, by norm_num⟩

/-! ## C9 — reference resolution -/

/-- C9, counterexample to the claim as stated: resolution extracts the
*first* integer of the reference, not the trailing one.  On the reference
`call_2_of_3` over three events, the source resolves to the second event
while trailing-integer resolution would give the third. -/
theorem c9_first_number_counterexample :
    match_call_id_to_event "call_2_of_3" c9E = some c9ey ∧
      match_call_id_to_event_claim "call_2_of_3" c9E = some c9ez ∧
      c9ey ≠ c9ez := by
  refine ⟨rfl, rfl, fun h => ?_⟩
  have hr := congrArg Event.run_id h
  simp [c9ey, c9ez] at hr

/-- C9 (amended): resolution first attempts numeric extraction using the
*leftmost* run of digits of the reference as a 1-based index into the
chronologically ordered call list; only when that fails (no digits, or an
out-of-range index) does it fall back to an exact identifier match; and a
reference that resolves neither way makes the finding contribute nothing
to any waste aggregate — resolution is total and never raises. -/
theorem c9_reference_resolution :
    (∀ (call_id : String) (events : List Event) (ds : List Char),
      firstDigitRun call_id.data = some ds →
      1 ≤ digitsToNat ds → digitsToNat ds ≤ events.length →
      match_call_id_to_event call_id events = events[digitsToNat ds - 1]?) ∧
    (∀ (call_id : String) (events : List Event),
      (firstDigitRun call_id.data = none ∨
        ∀ ds, firstDigitRun call_id.data = some ds →
          ¬(1 ≤ digitsToNat ds ∧ digitsToNat ds ≤ events.length)) →
      match_call_id_to_event call_id events =
        events.find? (fun e => e.run_id == call_id)) ∧
    (∀ (call_id : String) (events : List Event),
      match_call_id_to_event call_id events = none →
      (∀ f : OverkillFinding, f.call_id = call_id → overkillItemWaste events f = 0) ∧
      (∀ f : BloatFinding, f.call_id = call_id → bloatItemWaste events f = 0) ∧
      resolvedCost events call_id = 0) := by
  refine ⟨?_, ?_, ?_⟩
  · intro call_id events ds hds h1 h2
    simp only [match_call_id_to_event, hds]
    rw [if_pos ⟨h1, h2⟩]
  · intro call_id events h
    cases hfd : firstDigitRun call_id.data with
    | none => simp only [match_call_id_to_event, hfd]
    | some ds =>
      rcases h with h | h
      · rw [hfd] at h
        cases h
      · simp only [match_call_id_to_event, hfd]
        rw [if_neg (h ds hfd)]
  · intro call_id events hnone
    refine ⟨fun f hf => ?_, fun f hf => ?_, ?_⟩
    · simp only [overkillItemWaste, hf, hnone]
    · simp only [bloatItemWaste, hf, hnone]
    · simp only [resolvedCost, hnone]

/-- Witness for `c9_reference_resolution`: `call_2` resolves numerically
to the second of three events. -/
theorem c9_reference_resolution_witness :
    match_call_id_to_event "call_2" c9E = c9E[1]? :=
  c9_reference_resolution.1 "call_2" c9E ['2'] rfl (by decide) (by decide)

/-! ## C10 — emitted-edge invariants -/

theorem pyRound2_bounds (x : ℚ) (h1 : 0.1 ≤ x) (h2 : x ≤ 1) :
    0.1 ≤ pyRound 2 x ∧ pyRound 2 x ≤ 1 := by
  have hfl : (10 : ℤ) ≤ ⌊x * 10 ^ 2⌋ := by
    apply Int.le_floor.mpr
    push_cast
    nlinarith
  have hcl : ⌈x * 10 ^ 2⌉ ≤ (100 : ℤ) := by
    apply Int.ceil_le.mpr
    push_cast
    nlinarith
  have hlo := floor_le_roundHalfEvenInt (x * 10 ^ 2)
  have hhi := roundHalfEvenInt_le_ceil (x * 10 ^ 2)
  have h10 : (10 : ℚ) ≤ (roundHalfEvenInt (x * 10 ^ 2) : ℚ) := by
    exact_mod_cast le_trans hfl hlo
  have h100 : ((roundHalfEvenInt (x * 10 ^ 2) : ℚ)) ≤ 100 := by
    exact_mod_cast le_trans hhi hcl
  constructor
  · rw [pyRound, le_div_iff (by positivity)]
    calc (0.1 : ℚ) * 10 ^ 2 = 10 := by norm_num
    _ ≤ _ := h10
  · rw [pyRound, div_le_one (by positivity)]
    calc ((roundHalfEvenInt (x * 10 ^ 2) : ℚ)) ≤ 100 := h100
    _ = 10 ^ 2 := by norm_num

/-- C10: every edge the detector emits has type `exact` or `partial` —
never the data model's third type `none` — and its stored
(2-decimal-rounded) score lies in the closed interval `[0.1, 1]`. -/
theorem c10_emitted_edges (cache : List CachedResponse) (prompt : String)
    (e : ParentEdge) (hmem : e ∈ detect_parents cache prompt) :
    (e.overlap_type = "exact" ∨ e.overlap_type = "partial") ∧
      0.1 ≤ e.score ∧ e.score ≤ 1 := by
  rw [detect_parents] at hmem
  split at hmem
  · cases hmem
  · obtain ⟨r, _, hfr⟩ := List.mem_filterMap.mp hmem
    simp only [detectParentsFor] at hfr
    set pn := lowerChars prompt with hpn
    set rt := lowerChars r.response with hrt
    split at hfr
    · cases hfr
    · by_cases hsub : isSubstringOf rt pn = true
      · rw [if_pos hsub] at hfr
        rw [if_pos (show (0.1 : ℚ) ≤ (((1 : ℚ), ("exact" : String))).1 from by norm_num)]
          at hfr
        cases hfr
        refine ⟨Or.inl rfl, ?_, ?_⟩
        · show (0.1 : ℚ) ≤ pyRound 2 1
          rw [pyRound_one]
          norm_num
        · show pyRound 2 1 ≤ 1
          rw [pyRound_one]
      · rw [if_neg hsub] at hfr
        by_cases hlen : rt.length > 100
        · rw [if_pos hlen] at hfr
          set ck := responseChunks rt with hck
          set mm := (ck.filter (fun c => isSubstringOf c pn)).length with hmdef
          by_cases hm : mm > 1
          · rw [if_pos hm] at hfr
            by_cases hemit :
                (0.1 : ℚ) ≤ (((mm : ℚ) / (ck.length : ℚ), ("partial" : String))).1
            · rw [if_pos hemit] at hfr
              cases hfr
              have hemit2 : (0.1 : ℚ) ≤ (mm : ℚ) / (ck.length : ℚ) := hemit
              have hle : mm ≤ ck.length := by
                rw [hmdef]
                exact List.length_filter_le _ _
              have hposn : 0 < ck.length := by omega
              have hpos : 0 < (ck.length : ℚ) := by exact_mod_cast hposn
              have hone : (mm : ℚ) / (ck.length : ℚ) ≤ 1 := by
                rw [div_le_one hpos]
                exact_mod_cast hle
              exact ⟨Or.inr rfl, pyRound2_bounds _ hemit2 hone⟩
            · rw [if_neg hemit] at hfr
              cases hfr
          · rw [if_neg hm] at hfr
            rw [if_neg (show ¬((0.1 : ℚ) ≤ (((0 : ℚ), ("none" : String))).1) from
              by norm_num)] at hfr
            cases hfr
        · rw [if_neg hlen] at hfr
          rw [if_neg (show ¬((0.1 : ℚ) ≤ (((0 : ℚ), ("none" : String))).1) from
            by norm_num)] at hfr
          cases hfr

/-- Witness for `c10_emitted_edges` on a cache whose one response occurs
verbatim in the prompt. -/
theorem c10_emitted_edges_witness :
    ((⟨"r1", 1, "exact"⟩ : ParentEdge).overlap_type = "exact" ∨
      (⟨"r1", 1, "exact"⟩ : ParentEdge).overlap_type = "partial") ∧
      0.1 ≤ (⟨"r1", 1, "exact"⟩ : ParentEdge).score ∧
      (⟨"r1", 1, "exact"⟩ : ParentEdge).score ≤ 1 := by
  have hone : detectParentsFor (lowerChars c10prompt) ⟨"r1", "hello world"⟩ =
      some ⟨"r1", pyRound 2 1, "exact"⟩ := by
    simp +decide only [detectParentsFor, reduceIte,
      show isSubstringOf (lowerChars "hello world") (lowerChars c10prompt) = true
        from by decide,
      show (lowerChars "hello world").isEmpty = false from by decide]
    rw [if_pos (by norm_num)]
  rw [pyRound_one] at hone
  have hmem : (⟨"r1", 1, "exact"⟩ : ParentEdge) ∈ detect_parents c10cache c10prompt := by
    rw [detect_parents, if_neg (by decide)]
    simp only [c10cache, List.filterMap_cons, List.filterMap_nil, hone]
    exact List.mem_singleton_self _
  exact c10_emitted_edges c10cache c10prompt _ hmem

/-! ## C8 — detector matching rules -/

theorem pyRound2_two_thirds : pyRound 2 ((2 : ℚ) / 3) = 67 / 100 := by
  rw [pyRound, roundHalfEvenInt_eq_of_gt_half _ 66 (by norm_num) (by norm_num)]
  norm_num

/-- C8, counterexample to the claim as stated: on a cache holding an empty
prior response and a 151-character response with exactly 2 of 3 chunks in
the prompt, the source emits a single partial edge whose stored score is
the *rounded* `0.67`, while the claim mandates an exact edge for the empty
response (whose full text trivially occurs in the prompt) and a partial
score of exactly `2/3`. -/
theorem c8_detector_counterexample :
    detect_parents c8cache c8prompt = [⟨"r2", 0.67, "partial"⟩] ∧
      List.filterMap (c8ClaimEdge (lowerChars c8prompt)) c8cache =
        [⟨"r0", 1, "exact"⟩, ⟨"r2", 2 / 3, "partial"⟩] ∧
      (0.67 : ℚ) ≠ 2 / 3 := by
  have h0 : detectParentsFor (lowerChars c8prompt) ⟨"r0", ""⟩ = none := by
    simp +decide only [detectParentsFor, reduceIte,
      show (lowerChars "").isEmpty = true from rfl]
  have h2 : detectParentsFor (lowerChars c8prompt) ⟨"r2", c8resp⟩ =
      some ⟨"r2", pyRound 2 ((2 : ℚ) / 3), "partial"⟩ := by
    simp +decide only [detectParentsFor, reduceIte,
      show (lowerChars c8resp).isEmpty = false from by decide,
      show isSubstringOf (lowerChars c8resp) (lowerChars c8prompt) = false from by decide,
      show ((responseChunks (lowerChars c8resp)).filter
        (fun c => isSubstringOf c (lowerChars c8prompt))).length = 2 from by decide,
      show (responseChunks (lowerChars c8resp)).length = 3 from by decide,
      Nat.cast_ofNat]
    rw [if_pos (by norm_num)]
  have hc0 : c8ClaimEdge (lowerChars c8prompt) ⟨"r0", ""⟩ = some ⟨"r0", 1, "exact"⟩ := by
    simp +decide only [c8ClaimEdge, reduceIte,
      show isSubstringOf (lowerChars "") (lowerChars c8prompt) = true from by decide]
  have hc2 : c8ClaimEdge (lowerChars c8prompt) ⟨"r2", c8resp⟩ =
      some ⟨"r2", (2 : ℚ) / 3, "partial"⟩ := by
    simp +decide only [c8ClaimEdge, reduceIte,
      show isSubstringOf (lowerChars c8resp) (lowerChars c8prompt) = false from by decide,
      show ((responseChunks (lowerChars c8resp)).filter
        (fun c => isSubstringOf c (lowerChars c8prompt))).length = 2 from by decide,
      show (responseChunks (lowerChars c8resp)).length = 3 from by decide,
      Nat.cast_ofNat]
    rw [if_pos (by norm_num)]
  refine ⟨?_, ?_, by norm_num⟩
  · rw [detect_parents, if_neg (by decide)]
    simp only [c8cache, List.filterMap_cons, List.filterMap_nil, h0, h2,
      pyRound2_two_thirds]
    norm_num
  · simp only [c8cache, List.filterMap_cons, List.filterMap_nil, hc0, hc2]

/-- C8 (amended): for every *non-empty* cached prior response, compared
case-insensitively: a full-substring occurrence in the prompt emits an
exact edge of score 1.0; otherwise a response longer than 100 characters
with more than one 50-character chunk occurring in the prompt emits a
partial edge whose *stored* score is chunks_matched / chunks_total rounded
to two decimal places; an edge is emitted only when the unrounded score is
at least 0.1; empty cached responses emit nothing. -/
theorem c8_detector_behaviour (cache : List CachedResponse) (prompt : String)
    (hne : prompt.data.isEmpty = false) :
    detect_parents cache prompt =
      cache.filterMap (c8AmendedEdge (lowerChars prompt)) := by
  rw [detect_parents, if_neg (by simp [hne])]
  have hfun : ∀ r, detectParentsFor (lowerChars prompt) r =
      c8AmendedEdge (lowerChars prompt) r := by
    intro r
    simp only [detectParentsFor, c8AmendedEdge]
    set pn := lowerChars prompt with hpn
    set rt := lowerChars r.response with hrt
    by_cases hempty : rt.isEmpty = true
    · rw [if_pos hempty, if_pos hempty]
    · rw [if_neg hempty, if_neg hempty]
      by_cases hsub : isSubstringOf rt pn = true
      · rw [if_pos hsub, if_pos hsub]
        rw [if_pos (show (0.1 : ℚ) ≤ (((1 : ℚ), ("exact" : String))).1 from by norm_num)]
        rw [pyRound_one]
      · rw [if_neg hsub, if_neg hsub]
        by_cases hlen : rt.length > 100
        · rw [if_pos hlen, if_pos hlen]
          set ck := responseChunks rt with hck
          set mm := (ck.filter (fun c => isSubstringOf c pn)).length with hmdef
          by_cases hm : mm > 1
          · rw [if_pos hm]
            by_cases hemit : (0.1 : ℚ) ≤ (mm : ℚ) / (ck.length : ℚ)
            · rw [if_pos (show (0.1 : ℚ) ≤
                  (((mm : ℚ) / (ck.length : ℚ), ("partial" : String))).1 from hemit)]
              rw [if_pos ⟨hm, hemit⟩]
            · rw [if_neg (show ¬((0.1 : ℚ) ≤
                  (((mm : ℚ) / (ck.length : ℚ), ("partial" : String))).1) from hemit)]
              rw [if_neg (fun hc => hemit hc.2)]
          · rw [if_neg hm]
            rw [if_neg (show ¬((0.1 : ℚ) ≤ (((0 : ℚ), ("none" : String))).1) from
              by norm_num)]
            rw [if_neg (fun hc => hm hc.1)]
        · rw [if_neg hlen, if_neg hlen]
          rw [if_neg (show ¬((0.1 : ℚ) ≤ (((0 : ℚ), ("none" : String))).1) from
            by norm_num)]
  rw [show detectParentsFor (lowerChars prompt) = c8AmendedEdge (lowerChars prompt)
    from funext hfun]

/-- Witness for `c8_detector_behaviour` on a one-record cache and a
non-empty prompt. -/
theorem c8_detector_behaviour_witness :
    detect_parents c10cache c10prompt =
      List.filterMap (c8AmendedEdge (lowerChars c10prompt)) c10cache :=
  c8_detector_behaviour c10cache c10prompt rfl

/-! ## C7 — critical-path relaxation -/

theorem nodup_subset_length_le (l l2 : List String) (h : l.Nodup) (hs : l ⊆ l2) :
    l.length ≤ l2.length := by
  have h1 : l.toFinset.card = l.length := List.toFinset_card_of_nodup h
  have h2 : l.toFinset ⊆ l2.toFinset := by
    intro x hx
    simp only [List.mem_toFinset] at hx ⊢
    exact hs hx
  have h3 := Finset.card_le_card h2
  have h4 := l2.toFinset_card_le
  omega

theorem relaxEdge_le (events : List Event) (d : String → ℕ) (e : String × String)
    (v : String) : d v ≤ relaxEdge events d e v := by
  rw [relaxEdge]
  split
  · rcases eq_or_ne v e.2 with rfl | hne
    · rw [Function.update_same]
      omega
    · rw [Function.update_noteq hne]
  · exact le_refl _

theorem foldl_relax_le (events : List Event) (l : List (String × String))
    (d : String → ℕ) (v : String) : d v ≤ (l.foldl (relaxEdge events) d) v := by
  induction l generalizing d with
  | nil => exact le_refl _
  | cons e l ih => exact le_trans (relaxEdge_le events d e v) (ih _)

theorem foldl_relax_edge_le (events : List Event) (s t : String) :
    ∀ (l : List (String × String)) (d : String → ℕ), (s, t) ∈ l →
      d s + latencyOf events t ≤ (l.foldl (relaxEdge events) d) t := by
  intro l
  induction l with
  | nil => intro d h; cases h
  | cons e l ih =>
    intro d hmem
    rcases List.mem_cons.mp hmem with heq | hmem2
    · have h1 : d s + latencyOf events t ≤ relaxEdge events d e t := by
        rw [← heq, relaxEdge]
        dsimp only
        split
        next h => rw [Function.update_same]
        next h => omega
      exact le_trans h1 (foldl_relax_le events l _ t)
    · have h2 := ih (relaxEdge events d e) hmem2
      have h3 := relaxEdge_le events d e s
      calc d s + latencyOf events t ≤ relaxEdge events d e s + latencyOf events t := by
            omega
        _ ≤ _ := h2

theorem distIter_succ (events : List Event) (edges : List (String × String)) (k : ℕ) :
    distIter events edges (k + 1) =
      (orderedEdges events edges).foldl (relaxEdge events) (distIter events edges k) := by
  rw [distIter, distIter, Function.iterate_succ_apply']
  rfl

theorem distIter_le_succ (events : List Event) (edges : List (String × String))
    (k : ℕ) (v : String) : distIter events edges k v ≤ distIter events edges (k + 1) v := by
  rw [distIter_succ]
  exact foldl_relax_le events _ _ v

theorem distIter_mono (events : List Event) (edges : List (String × String))
    (k1 k2 : ℕ) (h : k1 ≤ k2) (v : String) :
    distIter events edges k1 v ≤ distIter events edges k2 v := by
  induction k2 with
  | zero =>
    have : k1 = 0 := by omega
    rw [this]
  | succ k ih =>
    rcases Nat.lt_or_ge k1 (k + 1) with h2 | h2
    · exact le_trans (ih (by omega)) (distIter_le_succ events edges k v)
    · have : k1 = k + 1 := by omega
      rw [this]

theorem WalkTo.ne_nil {edges : List (String × String)} {v : String} {w : List String}
    (h : WalkTo edges v w) : w ≠ [] := by
  cases h <;> simp

theorem WalkTo.head_eq {edges : List (String × String)} {v : String} {w : List String}
    (h : WalkTo edges v w) : w.head? = some v := by
  cases h <;> rfl

theorem mem_orderedEdges_of (events : List Event) (edges : List (String × String))
    (s t : String) (hedge : (s, t) ∈ edges) (hs : s ∈ rids events) :
    (s, t) ∈ orderedEdges events edges := by
  rw [orderedEdges]
  refine List.mem_flatMap.mpr ⟨s, hs, ?_⟩
  exact List.mem_filter.mpr ⟨hedge, by simp⟩

theorem orderedEdges_subset (events : List Event) (edges : List (String × String))
    (e : String × String) (he : e ∈ orderedEdges events edges) :
    e ∈ edges ∧ e.1 ∈ rids events := by
  rw [orderedEdges] at he
  obtain ⟨s, hs, hf⟩ := List.mem_flatMap.mp he
  obtain ⟨hee, heq⟩ := List.mem_filter.mp hf
  have : e.1 = s := by simpa using heq
  exact ⟨hee, this ▸ hs⟩

theorem walkSum_le_distIter (events : List Event) (edges : List (String × String))
    (hwf : ∀ e ∈ edges, e.1 ∈ rids events ∧ e.2 ∈ rids events) :
    ∀ (k : ℕ) (v : String) (w : List String), WalkTo edges v w → w.length ≤ k + 1 →
      walkSum events w ≤ distIter events edges k v := by
  intro k
  induction k with
  | zero =>
    intro v w hw hlen
    cases hw with
    | single v => simp [walkSum, distIter]
    | cons s v w2 hedge hw2 =>
      exfalso
      have h1 := hw2.ne_nil
      have h2 : w2.length = 0 := by simpa using hlen
      exact h1 (List.length_eq_zero.mp h2)
  | succ k ih =>
    intro v w hw hlen
    cases hw with
    | single v =>
      calc walkSum events [v] = latencyOf events v := by simp [walkSum]
        _ = distIter events edges 0 v := rfl
        _ ≤ distIter events edges (k + 1) v := distIter_mono events edges 0 (k + 1) (by omega) v
    | cons s v w2 hedge hw2 =>
      have hlen2 : w2.length ≤ k + 1 := by
        simp only [List.length_cons] at hlen
        omega
      have h1 : walkSum events w2 ≤ distIter events edges k s := ih s w2 hw2 hlen2
      have hmem : (s, v) ∈ orderedEdges events edges :=
        mem_orderedEdges_of events edges s v hedge ((hwf _ hedge).1)
      have h2 : distIter events edges k s + latencyOf events v ≤
          distIter events edges (k + 1) v := by
        rw [distIter_succ]
        exact foldl_relax_edge_le events s v (orderedEdges events edges) _ hmem
      calc walkSum events (v :: w2) = latencyOf events v + walkSum events w2 := by
            simp [walkSum]
        _ ≤ _ := by omega

theorem distIter_achievable (events : List Event) (edges : List (String × String))
    (hwf : ∀ e ∈ edges, e.1 ∈ rids events ∧ e.2 ∈ rids events) :
    ∀ (k : ℕ) (v : String), v ∈ rids events →
      ∃ w, WalkTo edges v w ∧ (∀ x ∈ w, x ∈ rids events) ∧
        distIter events edges k v = walkSum events w := by
  have hstep : ∀ (l : List (String × String)),
      (∀ e ∈ l, e ∈ edges ∧ e.1 ∈ rids events ∧ e.2 ∈ rids events) →
      ∀ (d : String → ℕ),
      (∀ v ∈ rids events, ∃ w, WalkTo edges v w ∧ (∀ x ∈ w, x ∈ rids events) ∧
        d v = walkSum events w) →
      ∀ v ∈ rids events, ∃ w, WalkTo edges v w ∧ (∀ x ∈ w, x ∈ rids events) ∧
        (l.foldl (relaxEdge events) d) v = walkSum events w := by
    intro l
    induction l with
    | nil => intro _ d hd; exact hd
    | cons e l ihl =>
      intro hl d hd
      refine ihl (fun e2 he2 => hl e2 (List.mem_cons_of_mem _ he2)) _ ?_
      obtain ⟨he, hs, ht⟩ := hl e (List.mem_cons_self _ _)
      intro v hv
      rw [relaxEdge]
      split
      · rcases eq_or_ne v e.2 with rfl | hne
        · obtain ⟨ws, hws, hsub, hdw⟩ := hd e.1 hs
          refine ⟨e.2 :: ws, ?_, ?_, ?_⟩
          · have : (e.1, e.2) = e := rfl
            exact WalkTo.cons e.1 e.2 ws (this ▸ he) hws
          · intro x hx
            rcases List.mem_cons.mp hx with rfl | hx2
            · exact hv
            · exact hsub x hx2
          · rw [Function.update_same, hdw]
            simp [walkSum, Nat.add_comm]
        · rw [Function.update_noteq hne]
          exact hd v hv
      · exact hd v hv
  intro k
  induction k with
  | zero =>
    intro v hv
    exact ⟨[v], WalkTo.single v, by simpa using hv, by simp [walkSum, distIter]⟩
  | succ k ih =>
    intro v hv
    have hord : ∀ e ∈ orderedEdges events edges,
        e ∈ edges ∧ e.1 ∈ rids events ∧ e.2 ∈ rids events := by
      intro e he
      obtain ⟨h1, h2⟩ := orderedEdges_subset events edges e he
      exact ⟨h1, h2, (hwf _ h1).2⟩
    obtain ⟨w, h1, h2, h3⟩ :=
      hstep (orderedEdges events edges) hord (distIter events edges k) ih v hv
    refine ⟨w, h1, h2, ?_⟩
    rw [distIter_succ]
    exact h3

theorem walk_nodup (edges : List (String × String)) (rank : String → ℕ)
    (hrank : ∀ e ∈ edges, rank e.1 < rank e.2) (v : String) (w : List String)
    (hw : WalkTo edges v w) : w.Nodup := by
  have hchain : ∀ (v2 : String) (w2 : List String), WalkTo edges v2 w2 →
      List.Chain' (fun a b => rank b < rank a) w2 := by
    intro v2 w2 hw2
    induction hw2 with
    | single v3 => simp
    | cons s v3 w3 hedge hw3 ih =>
      rw [List.chain'_cons']
      refine ⟨?_, ih⟩
      intro b hb
      rw [hw3.head_eq] at hb
      have hbs : s = b := by simpa using hb
      subst hbs
      exact hrank _ hedge
  haveI : IsTrans String (fun a b => rank b < rank a) :=
    ⟨fun a b c h1 h2 => lt_trans h2 h1⟩
  have hp := List.chain'_iff_pairwise.mp (hchain v w hw)
  exact hp.imp (fun h => by
    intro heq
    subst heq
    exact lt_irrefl _ h)

theorem le_foldr_max (x : ℕ) (L : List ℕ) (h : x ∈ L) : x ≤ L.foldr max 0 := by
  induction L with
  | nil => cases h
  | cons a L ih =>
    rcases List.mem_cons.mp h with rfl | h2
    · exact le_max_left _ _
    · exact le_trans (ih h2) (le_max_right _ _)

theorem add_foldr_max_le (c D : ℕ) (L : List ℕ) (hc : c ≤ D)
    (h : ∀ x ∈ L, c + x ≤ D) : c + L.foldr max 0 ≤ D := by
  induction L with
  | nil => simpa using hc
  | cons a L ih =>
    have h1 := h a (List.mem_cons_self _ _)
    have h2 := ih (fun x hx => h x (List.mem_cons_of_mem _ hx))
    simp only [List.foldr_cons] at *
    omega

theorem distAfter_eq (events : List Event) (edges : List (String × String)) :
    distAfter events edges = distIter events edges events.length := rfl

/-- C7: on a node-set with distinct identifiers and an acyclic edge set
(witnessed by a rank function increasing along edges), the `dist` value
computed by the node-count-many relaxation passes satisfies, at every
call, `dist[v] = latency[v] + max(0, max over incoming edges (src, v) of
dist[src])` (on ℕ the empty maximum is 0); the reported critical-path
latency is the maximum of `dist` over all calls; and a single call with no
edges yields its own latency. -/
theorem c7_critical_path_relaxation :
    (∀ (events : List Event) (edges : List (String × String)) (rank : String → ℕ),
      (rids events).Nodup →
      (∀ e ∈ edges, e.1 ∈ rids events ∧ e.2 ∈ rids events) →
      (∀ e ∈ edges, rank e.1 < rank e.2) →
      (∀ v ∈ rids events,
        distAfter events edges v =
          latencyOf events v +
            ((edges.filter (fun e => e.2 == v)).map
              (fun e => distAfter events edges e.1)).foldr max 0) ∧
      critical_path_latency events edges =
        ((rids events).map (distAfter events edges)).foldr max 0) ∧
    (∀ ev : Event, critical_path_latency [ev] [] = ev.latency_ms) := by
  constructor
  · intro events edges rank hnd hwf hrank
    have hn : (rids events).length = events.length := by simp [rids]
    have hkey : ∀ s v, (s, v) ∈ edges →
        distAfter events edges s + latencyOf events v ≤ distAfter events edges v := by
      intro s v hedge
      have hs : s ∈ rids events := (hwf _ hedge).1
      have hv : v ∈ rids events := (hwf _ hedge).2
      have hnpos : 1 ≤ events.length := by
        rcases events with _ | ⟨e0, es⟩
        · simp [rids] at hs
        · simp
      obtain ⟨ws, hws, hsub, hsum⟩ :=
        distIter_achievable events edges hwf events.length s hs
      have hwalk : WalkTo edges v (v :: ws) := WalkTo.cons s v ws hedge hws
      have hsub2 : ∀ x ∈ v :: ws, x ∈ rids events := by
        intro x hx
        rcases List.mem_cons.mp hx with rfl | hx2
        · exact hv
        · exact hsub x hx2
      have hnod := walk_nodup edges rank hrank v (v :: ws) hwalk
      have hlen : (v :: ws).length ≤ events.length := by
        have := nodup_subset_length_le (v :: ws) (rids events) hnod hsub2
        omega
      have hle := walkSum_le_distIter events edges hwf (events.length - 1) v (v :: ws)
        hwalk (by omega)
      have hstep := distIter_mono events edges (events.length - 1) events.length
        (by omega) v
      calc distAfter events edges s + latencyOf events v
          = walkSum events (v :: ws) := by
            rw [distAfter_eq, hsum]
            simp [walkSum, Nat.add_comm]
        _ ≤ distIter events edges (events.length - 1) v := hle
        _ ≤ distIter events edges events.length v := hstep
        _ = distAfter events edges v := rfl
    refine ⟨?_, rfl⟩
    intro v hv
    have hnpos : 1 ≤ events.length := by
      rcases events with _ | ⟨e0, es⟩
      · simp [rids] at hv
      · simp
    have hge : latencyOf events v +
        ((edges.filter (fun e => e.2 == v)).map
          (fun e => distAfter events edges e.1)).foldr max 0 ≤
        distAfter events edges v := by
      apply add_foldr_max_le
      · have h0 := distIter_mono events edges 0 events.length (by omega) v
        simpa [distIter, distAfter_eq] using h0
      · intro x hx
        obtain ⟨e, he, rfl⟩ := List.mem_map.mp hx
        obtain ⟨he1, he2⟩ := List.mem_filter.mp he
        have hev : e.2 = v := by simpa using he2
        have hedge2 : (e.1, v) ∈ edges := by
          rw [← hev]
          exact he1
        have hk := hkey e.1 v hedge2
        omega
    have hle2 : distAfter events edges v ≤ latencyOf events v +
        ((edges.filter (fun e => e.2 == v)).map
          (fun e => distAfter events edges e.1)).foldr max 0 := by
      obtain ⟨w, hw, hsub, hsum⟩ :=
        distIter_achievable events edges hwf events.length v hv
      cases hw with
      | single v =>
        rw [distAfter_eq, hsum]
        have : walkSum events [v] = latencyOf events v := by simp [walkSum]
        rw [this]
        exact Nat.le_add_right _ _
      | cons s v w2 hedge hw2 =>
        have hnod := walk_nodup edges rank hrank s w2 hw2
        have hsub2 : ∀ x ∈ w2, x ∈ rids events := fun x hx =>
          hsub x (List.mem_cons_of_mem _ hx)
        have hlen2 : w2.length ≤ events.length := by
          have := nodup_subset_length_le w2 (rids events) hnod hsub2
          omega
        have hw2le := walkSum_le_distIter events edges hwf (events.length - 1) s w2 hw2
          (by omega)
        have hDs := distIter_mono events edges (events.length - 1) events.length
          (by omega) s
        have hmemf : distAfter events edges s ∈
            (edges.filter (fun e => e.2 == v)).map (fun e => distAfter events edges e.1) := by
          refine List.mem_map.mpr ⟨(s, v), ?_, rfl⟩
          exact List.mem_filter.mpr ⟨hedge, by simp⟩
        have hmax := le_foldr_max _ _ hmemf
        have hgoal1 : distAfter events edges v = latencyOf events v + walkSum events w2 := by
          rw [distAfter_eq, hsum]
          simp [walkSum]
        rw [hgoal1]
        have hDA : distAfter events edges s = distIter events edges events.length s := rfl
        omega
    omega
  · intro ev
    simp [critical_path_latency, distAfter, distIter, relaxPass, orderedEdges, rids,
      latencyOf, List.find?]

/-- Witness for `c7_critical_path_relaxation` on a two-node chain. -/
theorem c7_critical_path_relaxation_witness :
    distAfter c7E c7edges "b" =
      latencyOf c7E "b" +
        ((c7edges.filter (fun e => e.2 == "b")).map
          (fun e => distAfter c7E c7edges e.1)).foldr max 0 :=
  ((c7_critical_path_relaxation.1 c7E c7edges c7rank (by decide) (by decide)
    (by decide)).1) "b" (by decide)

/-! ## C6 — dead-branch detection -/

theorem revAdj_spec1 (events : List Event) (edges : List (String × String))
    (t p : String) (hp : p ∈ revAdj events edges t) :
    (p, t) ∈ edges ∧ p ∈ rids events := by
  rw [revAdj] at hp
  obtain ⟨e, he, rfl⟩ := List.mem_map.mp hp
  obtain ⟨he1, he2⟩ := List.mem_filter.mp he
  obtain ⟨hee, hr⟩ := orderedEdges_subset events edges e he1
  have h2 : e.2 = t := by simpa using he2
  exact ⟨h2 ▸ hee, hr⟩

theorem revAdj_spec2 (events : List Event) (edges : List (String × String))
    (s t : String) (hedge : (s, t) ∈ edges) (hs : s ∈ rids events) :
    s ∈ revAdj events edges t := by
  rw [revAdj]
  refine List.mem_map.mpr ⟨(s, t), ?_, rfl⟩
  refine List.mem_filter.mpr ⟨mem_orderedEdges_of events edges s t hedge hs, by simp⟩

theorem bfsFold_spec (ps : List String) :
    ∀ (q al : List String),
      (∀ x, x ∈ (ps.foldl (fun (st : List String × List String) p =>
          if p ∈ st.2 then st else (st.1 ++ [p], st.2 ++ [p])) (q, al)).2 ↔
        x ∈ al ∨ x ∈ ps) ∧
      (∀ x, x ∈ (ps.foldl (fun (st : List String × List String) p =>
          if p ∈ st.2 then st else (st.1 ++ [p], st.2 ++ [p])) (q, al)).1 ↔
        x ∈ q ∨ (x ∈ ps ∧ ¬ x ∈ al)) ∧
      (al.Nodup → (ps.foldl (fun (st : List String × List String) p =>
          if p ∈ st.2 then st else (st.1 ++ [p], st.2 ++ [p])) (q, al)).2.Nodup) ∧
      (ps.foldl (fun (st : List String × List String) p =>
          if p ∈ st.2 then st else (st.1 ++ [p], st.2 ++ [p])) (q, al)).1.length +
        al.length =
      q.length + (ps.foldl (fun (st : List String × List String) p =>
          if p ∈ st.2 then st else (st.1 ++ [p], st.2 ++ [p])) (q, al)).2.length := by
  induction ps with
  | nil =>
    intro q al
    exact ⟨by simp, by simp, fun h => h, by simp⟩
  | cons p ps ih =>
    intro q al
    rw [List.foldl_cons]
    by_cases hp : p ∈ al
    · rw [if_pos (by simpa using hp)]
      obtain ⟨h1, h2, h3, h4⟩ := ih q al
      refine ⟨?_, ?_, h3, h4⟩
      · intro x
        rw [h1]
        constructor
        · rintro (hx | hx)
          · exact Or.inl hx
          · exact Or.inr (List.mem_cons_of_mem _ hx)
        · rintro (hx | hx)
          · exact Or.inl hx
          · rcases List.mem_cons.mp hx with rfl | hx2
            · exact Or.inl hp
            · exact Or.inr hx2
      · intro x
        rw [h2]
        constructor
        · rintro (hx | ⟨hx1, hx2⟩)
          · exact Or.inl hx
          · exact Or.inr ⟨List.mem_cons_of_mem _ hx1, hx2⟩
        · rintro (hx | ⟨hx1, hx2⟩)
          · exact Or.inl hx
          · rcases List.mem_cons.mp hx1 with rfl | hx3
            · exact absurd hp hx2
            · exact Or.inr ⟨hx3, hx2⟩
    · rw [if_neg (by simpa using hp)]
      obtain ⟨h1, h2, h3, h4⟩ := ih (q ++ [p]) (al ++ [p])
      refine ⟨?_, ?_, ?_, ?_⟩
      · intro x
        rw [h1]
        simp only [List.mem_append, List.mem_singleton, List.mem_cons]
        tauto
      · intro x
        rw [h2]
        simp only [List.mem_append, List.mem_singleton, List.mem_cons]
        by_cases hxp : x = p
        · subst hxp
          tauto
        · tauto
      · intro hnd
        refine h3 ?_
        rw [List.nodup_append]
        exact ⟨hnd, List.nodup_singleton p, by simpa using hp⟩
      · have h5 := h4
        rw [List.length_append, List.length_append] at h5
        simp only [List.length_cons, List.length_nil] at h5
        set A := ((q ++ [p], al ++ [p]) : List String × List String) with hA
        omega

theorem bfsLoop_spec (events : List Event) (edges : List (String × String))
    (out : String)
    (hwf : ∀ e ∈ edges, e.1 ∈ rids events ∧ e.2 ∈ rids events) :
    ∀ (fuel : ℕ) (queue alive : List String),
      queue ⊆ alive → alive.Nodup → alive ⊆ rids events →
      (∀ x ∈ alive, ReachesOutput edges out x) →
      (∀ x ∈ alive, x ∉ queue → ∀ p ∈ revAdj events edges x, p ∈ alive) →
      queue.length + events.length ≤ fuel + alive.length →
      alive ⊆ bfsLoop events edges fuel queue alive ∧
      (∀ x ∈ bfsLoop events edges fuel queue alive, ReachesOutput edges out x) ∧
      (∀ x ∈ bfsLoop events edges fuel queue alive,
        ∀ p ∈ revAdj events edges x, p ∈ bfsLoop events edges fuel queue alive) ∧
      bfsLoop events edges fuel queue alive ⊆ rids events := by
  intro fuel
  induction fuel with
  | zero =>
    intro queue alive hqa hnodup hsub hreach hclosed hacct
    have hrn : (rids events).length = events.length := by simp [rids]
    have hlen : alive.length ≤ events.length := by
      have h1 := nodup_subset_length_le alive (rids events) hnodup hsub
      omega
    have hq : queue = [] := List.length_eq_zero.mp (by omega)
    subst hq
    exact ⟨fun x hx => hx, hreach, fun x hx => hclosed x hx (by simp), hsub⟩
  | succ fuel ih =>
    intro queue alive hqa hnodup hsub hreach hclosed hacct
    cases queue with
    | nil =>
      exact ⟨fun x hx => hx, hreach, fun x hx => hclosed x hx (by simp), hsub⟩
    | cons curr queue =>
      obtain ⟨h1, h2, h3, h4⟩ := bfsFold_spec (revAdj events edges curr) queue alive
      set ST := (revAdj events edges curr).foldl
        (fun (st : List String × List String) p =>
          if p ∈ st.2 then st else (st.1 ++ [p], st.2 ++ [p])) (queue, alive) with hST
      have hcur : curr ∈ alive := hqa (List.mem_cons_self _ _)
      have halst : alive ⊆ ST.2 := fun x hx => (h1 x).mpr (Or.inl hx)
      have hqa2 : ST.1 ⊆ ST.2 := by
        intro x hx
        rcases (h2 x).mp hx with hx2 | ⟨hx2, _⟩
        · exact (h1 x).mpr (Or.inl (hqa (List.mem_cons_of_mem _ hx2)))
        · exact (h1 x).mpr (Or.inr hx2)
      have hsub2 : ST.2 ⊆ rids events := by
        intro x hx
        rcases (h1 x).mp hx with hx2 | hx2
        · exact hsub hx2
        · exact (revAdj_spec1 events edges curr x hx2).2
      have hreach2 : ∀ x ∈ ST.2, ReachesOutput edges out x := by
        intro x hx
        rcases (h1 x).mp hx with hx2 | hx2
        · exact hreach x hx2
        · obtain ⟨hedge, _⟩ := revAdj_spec1 events edges curr x hx2
          exact ReachesOutput.step x curr hedge (hreach curr hcur)
      have hclosed2 : ∀ x ∈ ST.2, x ∉ ST.1 → ∀ p ∈ revAdj events edges x, p ∈ ST.2 := by
        intro x hx hnq p hp
        by_cases hxal : x ∈ alive
        · by_cases hxc : x = curr
          · subst hxc
            exact (h1 p).mpr (Or.inr hp)
          · by_cases hxq : x ∈ queue
            · exact absurd ((h2 x).mpr (Or.inl hxq)) hnq
            · have hxq2 : x ∉ curr :: queue := by
                intro hc
                rcases List.mem_cons.mp hc with rfl | hc2
                · exact hxc rfl
                · exact hxq hc2
              exact (h1 p).mpr (Or.inl (hclosed x hxal hxq2 p hp))
        · rcases (h1 x).mp hx with hx2 | hx2
          · exact absurd hx2 hxal
          · exact absurd ((h2 x).mpr (Or.inr ⟨hx2, hxal⟩)) hnq
      have hacct2 : ST.1.length + events.length ≤ fuel + ST.2.length := by
        simp only [List.length_cons] at hacct
        omega
      obtain ⟨r1, r2, r3, r4⟩ :=
        ih ST.1 ST.2 hqa2 (h3 hnodup) hsub2 hreach2 hclosed2 hacct2
      exact ⟨fun x hx => r1 (halst hx), r2, r3, r4⟩

theorem aliveNodes_iff (events : List Event) (edges : List (String × String))
    (out : String)
    (hwf : ∀ e ∈ edges, e.1 ∈ rids events ∧ e.2 ∈ rids events)
    (hio : intendedOutput events edges = some out) (hout : out ∈ rids events) :
    ∀ v, v ∈ aliveNodes events edges ↔ ReachesOutput edges out v := by
  obtain ⟨hsub0, hsound, hclosed, _⟩ :=
    bfsLoop_spec events edges out hwf events.length [out] [out]
      (fun x hx => hx) (List.nodup_singleton out) (by simpa using hout)
      (by
        intro x hx
        have : x = out := by simpa using hx
        subst this
        exact ReachesOutput.refl)
      (fun x hx hnq => absurd hx hnq)
      (by simp [Nat.add_comm])
  have halive : aliveNodes events edges =
      bfsLoop events edges events.length [out] [out] := by
    rw [aliveNodes, hio]
  intro v
  constructor
  · intro hv
    rw [halive] at hv
    exact hsound v hv
  · intro hreach
    rw [halive]
    induction hreach with
    | refl => exact hsub0 (List.mem_singleton_self out)
    | step s t hedge hr ih =>
      exact hclosed t ih s (revAdj_spec2 events edges s t hedge (hwf _ hedge).1)

theorem foldl_argmax_eq (f : String → ℤ) (out : String) :
    ∀ (ls : List String) (a : String), (out = a ∨ out ∈ ls) →
      (∀ l, (l = a ∨ l ∈ ls) → l ≠ out → f l < f out) →
      ls.foldl (fun best x => if f best < f x then x else best) a = out := by
  intro ls
  induction ls with
  | nil =>
    intro a hmem _
    rcases hmem with rfl | h
    · rfl
    · cases h
  | cons x ls ih =>
    intro a hmem hbound
    rw [List.foldl_cons]
    apply ih
    · rcases hmem with rfl | hm
      · by_cases hxo : x = out
        · subst hxo
          left
          split <;> rfl
        · have hfx : f x < f out := hbound x (Or.inr (List.mem_cons_self _ _)) hxo
          left
          rw [if_neg (not_lt.mpr (le_of_lt hfx))]
      · rcases List.mem_cons.mp hm with rfl | hm2
        · by_cases hao : a = out
          · subst hao
            left
            split <;> rfl
          · have hfa : f a < f out := hbound a (Or.inl rfl) hao
            left
            rw [if_pos hfa]
        · exact Or.inr hm2
    · intro l hl hlo
      rcases hl with rfl | hl2
      · by_cases hfc : f a < f x
        · rw [if_pos hfc] at hlo ⊢
          exact hbound x (Or.inr (List.mem_cons_self _ _)) hlo
        · rw [if_neg hfc] at hlo ⊢
          exact hbound a (Or.inl rfl) hlo
      · exact hbound l (Or.inr (List.mem_cons_of_mem _ hl2)) hlo

theorem intendedOutput_eq (events : List Event) (edges : List (String × String))
    (out : String) (hleaf : out ∈ leafNodes events edges)
    (hmax : ∀ l ∈ leafNodes events edges, l ≠ out →
      timeOf events l < timeOf events out) :
    intendedOutput events edges = some out := by
  rcases hL : leafNodes events edges with _ | ⟨a, ls⟩
  · rw [hL] at hleaf
    cases hleaf
  · rw [intendedOutput, hL]
    show some (ls.foldl (fun best x =>
      if timeOf events best < timeOf events x then x else best) a) = some out
    congr 1
    apply foldl_argmax_eq (timeOf events) out ls a
    · rw [hL] at hleaf
      rcases List.mem_cons.mp hleaf with rfl | h
      · exact Or.inl rfl
      · exact Or.inr h
    · intro l hl hlo
      refine hmax l ?_ hlo
      rw [hL]
      rcases hl with rfl | h
      · exact List.mem_cons_self _ _
      · exact List.mem_cons_of_mem _ h

theorem find?_run_id_eq : ∀ (events : List Event), (rids events).Nodup →
    ∀ e ∈ events, events.find? (fun x => x.run_id == e.run_id) = some e := by
  intro events
  induction events with
  | nil => intro _ e he; cases he
  | cons a l ih =>
    intro hnd e he
    rw [rids, List.map_cons, List.nodup_cons] at hnd
    rcases List.mem_cons.mp he with rfl | he2
    · exact List.find?_cons_of_pos _ (by simp)
    · have hne : ¬(a.run_id == e.run_id) = true := by
        simp only [beq_iff_eq]
        intro hr
        refine hnd.1 ?_
        rw [hr]
        exact List.mem_map_of_mem Event.run_id he2
      exact Eq.trans (List.find?_cons_of_neg _ hne)
        (ih (by rw [rids]; exact hnd.2) e he2)

theorem sum_map_filter_eq (p : Event → Bool) (l : List Event) :
    ((l.filter p).map Event.cost).sum =
      (l.map (fun e => if p e then e.cost else 0)).sum := by
  induction l with
  | nil => rfl
  | cons a l ih =>
    by_cases hpa : p a = true
    · simp [List.filter_cons, hpa, ih]
    · simp [List.filter_cons, hpa, ih]

theorem reach_mono (edges edges2 : List (String × String)) (out : String)
    (hsub : edges ⊆ edges2) :
    ∀ v, ReachesOutput edges out v → ReachesOutput edges2 out v := by
  intro v h
  induction h with
  | refl => exact ReachesOutput.refl
  | step s t hedge hr ih => exact ReachesOutput.step s t (hsub hedge) ih

theorem chainEdges_mem (S : List String) (e : String × String)
    (he : e ∈ chainEdges S) : e.1 ∈ S ∧ e.2 ∈ S := by
  obtain ⟨a, b⟩ := e
  rw [chainEdges] at he
  have h1 := List.of_mem_zip he
  exact ⟨h1.1, List.tail_subset S h1.2⟩

theorem chain_reach : ∀ (S : List String) (h : S ≠ []) (r : String), r ∈ S →
    ReachesOutput (chainEdges S) (S.getLast h) r := by
  intro S
  induction S with
  | nil => intro h; exact absurd rfl h
  | cons a T ih =>
    intro h r hr
    cases T with
    | nil =>
      have hra : r = a := by simpa using hr
      subst hra
      exact ReachesOutput.refl
    | cons b T2 =>
      have hstep : chainEdges (a :: b :: T2) = (a, b) :: chainEdges (b :: T2) := rfl
      have hlast : (a :: b :: T2).getLast h = (b :: T2).getLast (by simp) :=
        List.getLast_cons _
      have hsubE : chainEdges (b :: T2) ⊆ chainEdges (a :: b :: T2) := by
        rw [hstep]
        exact fun e he => List.mem_cons_of_mem _ he
      rcases List.mem_cons.mp hr with rfl | hr2
      · have hedge : (r, b) ∈ chainEdges (r :: b :: T2) := by
          rw [hstep]
          exact List.mem_cons_self _ _
        have hb := ih (by simp) b (List.mem_cons_self _ _)
        rw [hlast]
        exact ReachesOutput.step r b hedge (reach_mono _ _ _ hsubE b hb)
      · rw [hlast]
        exact reach_mono _ _ _ hsubE r (ih (by simp) r hr2)

theorem chain_leaf_filter : ∀ (S : List String) (h : S ≠ []), S.Nodup →
    S.filter (fun r => outDegree (chainEdges S) r == 0) = [S.getLast h] := by
  intro S
  induction S with
  | nil => intro h; exact absurd rfl h
  | cons a T ih =>
    intro h hnd
    cases T with
    | nil => simp [chainEdges, outDegree]
    | cons b T2 =>
      rw [List.nodup_cons] at hnd
      have hstep : chainEdges (a :: b :: T2) = (a, b) :: chainEdges (b :: T2) := rfl
      rw [List.filter_cons]
      have hda : outDegree (chainEdges (a :: b :: T2)) a ≠ 0 := by
        rw [hstep, outDegree, List.filter_cons]
        simp
      rw [if_neg (by simpa using hda)]
      have hagree : ∀ r ∈ b :: T2,
          (outDegree (chainEdges (a :: b :: T2)) r == 0) =
          (outDegree (chainEdges (b :: T2)) r == 0) := by
        intro r hrm
        have hra : ¬((a, b).1 == r) = true := by
          simp only [beq_iff_eq]
          intro he
          exact hnd.1 (by rw [he]; exact hrm)
        rw [hstep, outDegree, outDegree, List.filter_cons, if_neg hra]
      rw [List.filter_congr hagree, ih (by simp) hnd.2]
      rfl

open Classical in
/-- C6: with distinct node identifiers, well-formed edges and a unique
latest-created leaf `out` (the intended output), the breadth-first alive
set is exactly the set of calls backward-reachable, over reversed edges,
from `out`, and the dead-branch cost is the summed cost of exactly the
non-reachable calls; moreover any workflow whose calls form a single
linear chain has dead-branch cost 0. -/
theorem c6_dead_branch_waste :
    (∀ (events : List Event) (edges : List (String × String)) (out : String),
      (rids events).Nodup →
      (∀ e ∈ edges, e.1 ∈ rids events ∧ e.2 ∈ rids events) →
      out ∈ leafNodes events edges →
      (∀ l ∈ leafNodes events edges, l ≠ out →
        timeOf events l < timeOf events out) →
      (∀ v, v ∈ aliveNodes events edges ↔ ReachesOutput edges out v) ∧
      dead_branch_waste events edges =
        (events.map (fun e =>
          if ReachesOutput edges out e.run_id then 0 else e.cost)).sum) ∧
    (∀ events : List Event, events ≠ [] → (rids events).Nodup →
      dead_branch_waste events (chainEdges (rids events)) = 0) := by
  have main : ∀ (events : List Event) (edges : List (String × String)) (out : String),
      (rids events).Nodup →
      (∀ e ∈ edges, e.1 ∈ rids events ∧ e.2 ∈ rids events) →
      intendedOutput events edges = some out → out ∈ rids events →
      (∀ v, v ∈ aliveNodes events edges ↔ ReachesOutput edges out v) ∧
      dead_branch_waste events edges =
        (events.map (fun e =>
          if ReachesOutput edges out e.run_id then 0 else e.cost)).sum := by
    intro events edges out hnd hwf hio hout
    have hiff := aliveNodes_iff events edges out hwf hio hout
    refine ⟨hiff, ?_⟩
    rw [dead_branch_waste, deadNodes, rids, List.filter_map, List.map_map]
    have hmapc : (events.filter ((fun r => decide (¬ r ∈ aliveNodes events edges)) ∘
          Event.run_id)).map (costOf events ∘ Event.run_id) =
        (events.filter ((fun r => decide (¬ r ∈ aliveNodes events edges)) ∘
          Event.run_id)).map Event.cost := by
      apply List.map_congr_left
      intro e he
      have hee : e ∈ events := List.mem_of_mem_filter he
      show costOf events e.run_id = e.cost
      rw [costOf, find?_run_id_eq events hnd e hee]
    rw [hmapc, sum_map_filter_eq]
    congr 1
    apply List.map_congr_left
    intro e _
    show (if decide (¬ e.run_id ∈ aliveNodes events edges) = true
        then e.cost else 0) =
      if ReachesOutput edges out e.run_id then 0 else e.cost
    by_cases hre : ReachesOutput edges out e.run_id
    · have hmem : e.run_id ∈ aliveNodes events edges := (hiff _).mpr hre
      rw [if_pos hre, if_neg (by simpa using hmem)]
    · have hmem : ¬ e.run_id ∈ aliveNodes events edges :=
        fun hm => hre ((hiff _).mp hm)
      rw [if_neg hre, if_pos (by simpa using hmem)]
  constructor
  · intro events edges out hnd hwf hleaf hmax
    have hout : out ∈ rids events := (List.mem_filter.mp hleaf).1
    exact main events edges out hnd hwf
      (intendedOutput_eq events edges out hleaf hmax) hout
  · intro events hne hnd
    have hSne : rids events ≠ [] := by
      intro hc
      exact hne (List.map_eq_nil.mp hc)
    have hleafN : leafNodes events (chainEdges (rids events)) =
        [(rids events).getLast hSne] := by
      rw [leafNodes]
      exact chain_leaf_filter (rids events) hSne hnd
    have hio : intendedOutput events (chainEdges (rids events)) =
        some ((rids events).getLast hSne) := by
      rw [intendedOutput, hleafN]
      rfl
    have hwf : ∀ e ∈ chainEdges (rids events),
        e.1 ∈ rids events ∧ e.2 ∈ rids events :=
      fun e he => chainEdges_mem (rids events) e he
    have hout : (rids events).getLast hSne ∈ rids events := List.getLast_mem _
    have hiff := aliveNodes_iff events (chainEdges (rids events))
      ((rids events).getLast hSne) hwf hio hout
    have hdead : deadNodes events (chainEdges (rids events)) = [] := by
      rw [deadNodes]
      refine List.filter_eq_nil.mpr ?_
      intro r hr
      simp only [decide_eq_true_eq, not_not]
      exact (hiff r).mpr (chain_reach (rids events) hSne r hr)
    rw [dead_branch_waste, hdead]
    rfl

/-- Witness for `c6_dead_branch_waste`: a two-call chain has zero
dead-branch cost. -/
theorem c6_dead_branch_waste_witness :
    dead_branch_waste c7E (chainEdges (rids c7E)) = 0 :=
  c6_dead_branch_waste.2 c7E (by simp [c7E]) (by decide)

end AgentScore
